import Mathlib

/-!
Verification of the CPU-scheduling simulator in `main.go` (package main).

The Go program simulates three single-processor scheduling policies over a
list of process records and reports a Gantt timeline plus per-process
statistics:
  - `FCFSSchedule`        : first-come-first-serve, non-preemptive;
  - `SJFSchedule`         : shortest-remaining-time-first, preemptive;
  - `SJFPrioritySchedule` : preemptive priority via `container/heap`.

This file is a shallow embedding of those functions.  Go `int64` values are
modelled as `Int` (no claim under consideration depends on 64-bit overflow,
and all scenario inputs are tiny); Go `float64` accumulators only ever hold
sums of small integers, which float64 represents exactly, so averages are
modelled as exact rationals.  Loops whose iteration count is not structural
are given explicit fuel; fuel exhaustion is distinguished from the Go
runtime panics that the source can actually hit (indexing an empty slice).
-/
/-- Go struct `Process` (`main.go` lines 62-67): one schedulable unit. -/
structure Process where
  ProcessID     : Int
  ArrivalTime   : Int
  BurstDuration : Int
  Priority      : Int
deriving DecidableEq, Repr

/-- The Go zero value `Process{}`: all fields 0.  Used where Go reads a
missing map entry or Go code would index with a default. -/
instance : Inhabited Process := ⟨⟨0, 0, 0, 0⟩⟩

/-- Go struct `TimeSlice` (`main.go` lines 68-72): one Gantt interval.
A freshly appended slice has `Stop = 0` (the Go zero value) until
`setStop` closes it. -/
structure TimeSlice where
  PID   : Int
  Start : Int
  Stop  : Int
deriving DecidableEq, Repr

/-- The Go zero value `TimeSlice{}`. -/
instance : Inhabited TimeSlice := ⟨⟨0, 0, 0⟩⟩

/-- `math.MaxInt64`, the sentinel used by `SJFSchedule` for
`minRemainTime`. -/
def maxInt64 : Int := 9223372036854775807

/-- `sum` (`main.go` lines 356-362): sum of an `int64` slice. -/
def sumInts (nums : List Int) : Int := nums.foldl (fun s n => s + n) 0

/-- `findTurnAroundTimes` (`main.go` lines 330-336):
`turnAroundTimes[i] = processes[i].BurstDuration + waitingTimes[i]`. -/
def findTurnAroundTimes (processes : List Process) (waitingTimes : List Int) : List Int :=
  List.zipWith (fun p w => p.BurstDuration + w) processes waitingTimes

/-- The PID of the last Gantt slice, if any. -/
def lastPid (gantt : List TimeSlice) : Option Int := gantt.getLast?.map TimeSlice.PID

/-- `appendGantt` (`main.go` lines 338-347): append a new slice
`{PID, Start: start}` (Stop left at the zero value 0) unless the last
slice already belongs to the same process. -/
def appendGantt (gantt : List TimeSlice) (process : Process) (start : Int) : List TimeSlice :=
  if gantt = [] ∨ ¬ lastPid gantt = some process.ProcessID then
    gantt ++ [{ PID := process.ProcessID, Start := start, Stop := 0 }]
  else gantt

/-- `setStop` (`main.go` lines 349-354): set the last slice's `Stop`. -/
def setStop (gantt : List TimeSlice) (stop : Int) : List TimeSlice :=
  match gantt with
  | [] => []
  | [s] => [{ s with Stop := stop }]
  | s :: rest => s :: setStop rest stop

/-! ## FCFS (`FCFSSchedule`, `main.go` lines 81-131)

The loop body, written as structural recursion over the process list.
The mutable loop state is `serviceTime` and the carried-over
`waitingTime` accumulator (both start at 0).  Per iteration (lines
91-121):
  - `if processes[i].ArrivalTime > 0 { waitingTime = serviceTime - arrival }`
    (otherwise the previous `waitingTime` is reused unchanged);
  - `start := waitingTime + arrival`;
  - `turnaround := burst + waitingTime`;
  - `completion := burst + arrival + waitingTime`;
  - `serviceTime += burst`;
  - `gantt = append(gantt, TimeSlice{PID, start, serviceTime})`.
-/
/-- One FCFS run from a given `serviceTime`/`waitingTime` state; returns
the per-process waiting, turnaround and completion lists plus the gantt. -/
def fcfsRun (serviceTime waitingTime : Int) :
    List Process → List Int × List Int × List Int × List TimeSlice
  | [] => ([], [], [], [])
  | p :: rest =>
    let w := if p.ArrivalTime > 0 then serviceTime - p.ArrivalTime else waitingTime
    let start := w + p.ArrivalTime
    let turnaround := p.BurstDuration + w
    let completion := p.BurstDuration + p.ArrivalTime + w
    let serviceTime2 := serviceTime + p.BurstDuration
    let r := fcfsRun serviceTime2 w rest
    (w :: r.1, turnaround :: r.2.1, completion :: r.2.2.1,
      { PID := p.ProcessID, Start := start, Stop := serviceTime2 } :: r.2.2.2)

/-- The result of `FCFSSchedule`, before rendering. -/
structure FCFSResult where
  waitingTimes    : List Int
  turnaroundTimes : List Int
  completionTimes : List Int
  gantt           : List TimeSlice
deriving DecidableEq, Repr

/-- `FCFSSchedule` (`main.go` lines 81-131), output-rendering dropped. -/
def FCFSSchedule (processes : List Process) : FCFSResult :=
  let r := fcfsRun 0 0 processes
  { waitingTimes := r.1, turnaroundTimes := r.2.1,
    completionTimes := r.2.2.1, gantt := r.2.2.2 }

/-- `totalWait` of `FCFSSchedule`: float64 accumulation of the integer
waiting times (exact, modelled as the integer sum). -/
def fcfsTotalWait (processes : List Process) : Int :=
  sumInts (FCFSSchedule processes).waitingTimes

/-- `totalTurnaround` of `FCFSSchedule`. -/
def fcfsTotalTurnaround (processes : List Process) : Int :=
  sumInts (FCFSSchedule processes).turnaroundTimes

/-- `lastCompletion` of `FCFSSchedule`: overwritten each iteration, so it
is the completion of the last process processed (0.0 for no process). -/
def fcfsLastCompletion (processes : List Process) : Int :=
  (FCFSSchedule processes).completionTimes.getLastD 0

/-- `aveWait := totalWait / count` (float64 division, modelled exactly). -/
def fcfsAveWait (processes : List Process) : ℚ :=
  (fcfsTotalWait processes : ℚ) / (processes.length : ℚ)

/-- `aveTurnaround := totalTurnaround / count`. -/
def fcfsAveTurnaround (processes : List Process) : ℚ :=
  (fcfsTotalTurnaround processes : ℚ) / (processes.length : ℚ)

/-- `aveThroughput := count / lastCompletion`. -/
def fcfsAveThroughput (processes : List Process) : ℚ :=
  (processes.length : ℚ) / (fcfsLastCompletion processes : ℚ)

/-- Sum of all burst durations of the input. -/
def totalBurst (processes : List Process) : Int :=
  sumInts (processes.map Process.BurstDuration)

/-! ## Timeline well-formedness (the invariant of claim C2) -/
/-- Every interval runs forward: `Start < Stop`. -/
def slicesPositive (gantt : List TimeSlice) : Prop :=
  ∀ s ∈ gantt, s.Start < s.Stop

/-- Adjacent intervals do not overlap and never share a `PID`. -/
def ganttChain (gantt : List TimeSlice) : Prop :=
  List.Chain' (fun a b => a.Stop ≤ b.Start ∧ a.PID ≠ b.PID) gantt

/-- The timeline invariant of the specification: positive, ordered,
non-overlapping intervals with no two adjacent slices sharing a PID. -/
def ganttWellFormed (gantt : List TimeSlice) : Prop :=
  slicesPositive gantt ∧ ganttChain gantt

instance (gantt : List TimeSlice) : Decidable (slicesPositive gantt) :=
  inferInstanceAs (Decidable (∀ s ∈ gantt, s.Start < s.Stop))

instance ganttChainDec : (gantt : List TimeSlice) → Decidable (ganttChain gantt)
  | [] => isTrue List.chain'_nil
  | [s] => isTrue (List.chain'_singleton s)
  | a :: b :: rest =>
    if h1 : a.Stop ≤ b.Start ∧ a.PID ≠ b.PID then
      match ganttChainDec (b :: rest) with
      | isTrue h2 => isTrue (List.chain'_cons.mpr ⟨h1, h2⟩)
      | isFalse h2 => isFalse (fun hc => h2 (List.chain'_cons.mp hc).2)
    else isFalse (fun hc => h1 (List.chain'_cons.mp hc).1)

instance (gantt : List TimeSlice) : Decidable (ganttWellFormed gantt) :=
  inferInstanceAs (Decidable (_ ∧ _))

/-- Total processor time covered by the timeline: `Σ (Stop - Start)`. -/
def ganttTotalLen (gantt : List TimeSlice) : Int :=
  sumInts (gantt.map (fun s => s.Stop - s.Start))

/-! ## SRTF (`SJFSchedule`, `main.go` lines 245-328)

Discrete ticks starting at `t = 0`.  The scan over `i := range processes`
(lines 265-271) updates the running triple
`(minRemainTime, curIdx, isCheck)`; note that `minRemainTime` is *not*
reset at the top of a tick — it carries the running process's remaining
burst across ticks and is reset to `math.MaxInt64` only on completion. -/
/-- The scan body (lines 265-271), folded over the indexed
`(process, remainTime)` pairs:
`if arrival <= t && remainTime[i] < minRemainTime && remainTime[i] > 0`
then the triple becomes `(remainTime[i], i, true)`. -/
def srtfScanGo (t : Int) :
    List (Nat × Process × Int) → Int × Nat × Bool → Int × Nat × Bool
  | [], s => s
  | (i, p, r) :: rest, (minRemainTime, curIdx, isCheck) =>
    if p.ArrivalTime ≤ t ∧ r < minRemainTime ∧ r > 0 then
      srtfScanGo t rest (r, i, true)
    else
      srtfScanGo t rest (minRemainTime, curIdx, isCheck)

/-- The eligibility test of the scan, as a Bool predicate on an indexed
`(process, remainTime)` entry, for a given tick `t` and threshold. -/
def srtfImproves (t minRemainTime : Int) (x : Nat × Process × Int) : Bool :=
  decide (x.2.1.ArrivalTime ≤ t ∧ x.2.2 < minRemainTime ∧ x.2.2 > 0)

/-- Full scan of one tick over all processes. -/
def srtfScan (processes : List Process) (remainTime : List Int) (t : Int)
    (minRemainTime : Int) (curIdx : Nat) (isCheck : Bool) : Int × Nat × Bool :=
  srtfScanGo t ((processes.zip remainTime).enum) (minRemainTime, curIdx, isCheck)

/-- Mutable state of the `for numsOfCompletion < n` loop of `SJFSchedule`
(lines 246-258). -/
structure SRTFState where
  remainTime       : List Int
  t                : Int
  curIdx           : Nat
  numsOfCompletion : Nat
  minRemainTime    : Int
  isCheck          : Bool
  waitingTimes     : List Int
  gantt            : List TimeSlice
deriving Repr

/-- Initial SRTF state: `remainTime[i] = burst`, everything else zeroed,
`minRemainTime = math.MaxInt64` (lines 246-262). -/
def srtfInit (processes : List Process) : SRTFState where
  remainTime := processes.map Process.BurstDuration
  t := 0
  curIdx := 0
  numsOfCompletion := 0
  minRemainTime := maxInt64
  isCheck := false
  waitingTimes := List.replicate processes.length 0
  gantt := []

/-- One iteration of the SRTF loop body (lines 264-301). -/
def srtfStep (processes : List Process) (st : SRTFState) : SRTFState :=
  let scanned := srtfScan processes st.remainTime st.t st.minRemainTime st.curIdx st.isCheck
  let minRemainTime := scanned.1
  let curIdx := scanned.2.1
  let isCheck := scanned.2.2
  if isCheck = false then
    -- idle tick (lines 273-276): `t++; continue`
    { st with t := st.t + 1,
              minRemainTime := minRemainTime, curIdx := curIdx, isCheck := isCheck }
  else
    let p := processes.getD curIdx default
    let gantt := appendGantt st.gantt p st.t
    let remainTime := st.remainTime.set curIdx (st.remainTime.getD curIdx 0 - 1)
    let r := remainTime.getD curIdx 0
    -- lines 282-285: reset the threshold to MaxInt64 once the running
    -- process completes
    let minRemainTime2 := if r = 0 then maxInt64 else r
    if r = 0 then
      let stop := st.t + 1
      let gantt2 := setStop gantt stop
      let w := stop - p.BurstDuration - p.ArrivalTime
      let w2 := if w < 0 then 0 else w
      { remainTime := remainTime, t := st.t + 1, curIdx := curIdx,
        numsOfCompletion := st.numsOfCompletion + 1,
        minRemainTime := minRemainTime2, isCheck := false,
        waitingTimes := st.waitingTimes.set curIdx w2, gantt := gantt2 }
    else
      { remainTime := remainTime, t := st.t + 1, curIdx := curIdx,
        numsOfCompletion := st.numsOfCompletion,
        minRemainTime := minRemainTime2, isCheck := isCheck,
        waitingTimes := st.waitingTimes, gantt := gantt }

/-- The `for numsOfCompletion < n` loop, with fuel; `none` means the fuel
ran out (the Go loop itself has no failure mode). -/
def srtfLoop (processes : List Process) : Nat → SRTFState → Option SRTFState
  | 0, st => if st.numsOfCompletion < processes.length then none else some st
  | fuel + 1, st =>
    if st.numsOfCompletion < processes.length then
      srtfLoop processes fuel (srtfStep processes st)
    else some st

/-- The result of `SJFSchedule`, before rendering. -/
structure SRTFResult where
  waitingTimes    : List Int
  turnaroundTimes : List Int
  completionTimes : List Int
  lastCompletion  : Int
  gantt           : List TimeSlice
deriving DecidableEq, Repr

/-- Post-loop reporting of `SJFSchedule` (lines 303-319):
turnarounds via `findTurnAroundTimes`, per-row
`completion := burst + arrival + waitingTimes[i]`, and `lastCompletion`
is the running maximum (starting from the zero value 0). -/
def srtfExtract (processes : List Process) (st : SRTFState) : SRTFResult :=
  let turnAroundTimes := findTurnAroundTimes processes st.waitingTimes
  let completions :=
    List.zipWith (fun p w => p.BurstDuration + p.ArrivalTime + w) processes st.waitingTimes
  { waitingTimes := st.waitingTimes
    turnaroundTimes := turnAroundTimes
    completionTimes := completions
    lastCompletion := completions.foldl (fun last c => if last < c then c else last) 0
    gantt := st.gantt }

/-- `SJFSchedule` (`main.go` lines 245-328), fuelled. -/
def SJFSchedule (fuel : Nat) (processes : List Process) : Option SRTFResult :=
  (srtfLoop processes fuel (srtfInit processes)).map (srtfExtract processes)

/-- The state of the SRTF simulation after `k` loop iterations. -/
def srtfStateAt (processes : List Process) (k : Nat) : SRTFState :=
  Nat.iterate (srtfStep processes) k (srtfInit processes)

/-- The process index the engine runs during loop iteration `k`
(`none` when the tick is idle): the `curIdx` selected by the scan of
that iteration. -/
def srtfSelectedAt (processes : List Process) (k : Nat) : Option Nat :=
  let st := srtfStateAt processes k
  let scanned := srtfScan processes st.remainTime st.t st.minRemainTime st.curIdx st.isCheck
  if scanned.2.2 then some scanned.2.1 else none

/-- Modelled from the spec (claim C4's selection rule): at each tick,
among all processes with `arrivalTime ≤ t` and `remainingBurst > 0`,
select the one with the globally smallest remaining burst, ties broken
by lowest input index — i.e. a fresh scan whose threshold starts at
`math.MaxInt64` instead of the carried `minRemainTime`. -/
def srtfClaimSelectedAt (processes : List Process) (k : Nat) : Option Nat :=
  let st := srtfStateAt processes k
  let scanned := srtfScan processes st.remainTime st.t maxInt64 0 false
  if scanned.2.2 then some scanned.2.1 else none

/-! ## The min-heap (`ProcessMinHeap`, `main.go` lines 215-243, driven by
Go's `container/heap`)

`ProcessMinHeap` is a `[]Process` with `Less i j = h[i].Priority < h[j].Priority`,
`Swap`, an appending `Push` and a last-element-removing `Pop`.  The
`container/heap` package layers the standard sift-up / sift-down binary
heap algorithm on top:

  - `heap.Push(h, x)`: `h.Push(x); up(h, h.Len()-1)`;
  - `heap.Pop(h)`: `n := h.Len()-1; h.Swap(0, n); down(h, 0, n); return h.Pop()`
    — which indexes out of range (a runtime panic) when the heap is empty;
  - `up(h, j)`: while `j > 0` and `h.Less(j, (j-1)/2)`, swap and move up;
  - `down(h, i, n)`: move `i` down, always choosing the smaller child.

The heap is modelled as a `List Process`; `up` and `down` take explicit
fuel (the parent chain of `j` has at most `j` links, and `down` moves
strictly towards `n`, so the fuel passed at every call site is enough and
the bound is never the reason a run stops). -/
/-- Read `h[i]` (in verified call sites `i` is always in bounds). -/
def hget (h : List Process) (i : Nat) : Process := h.getD i default

/-- `Swap(i, j)` on the slice. -/
def hswap (h : List Process) (i j : Nat) : List Process :=
  (h.set i (hget h j)).set j (hget h i)

/-- `ProcessMinHeap.Less` (lines 223-225). -/
def heapLess (h : List Process) (i j : Nat) : Bool :=
  decide ((hget h i).Priority < (hget h j).Priority)

/-- `container/heap`'s `up`, with fuel. -/
def heapUp (h : List Process) : Nat → Nat → List Process
  | 0, _ => h
  | _ + 1, 0 => h
  | fuel + 1, j =>
    let i := (j - 1) / 2
    if heapLess h j i then heapUp (hswap h i j) fuel i else h

/-- `container/heap`'s `down` (its boolean result is unused by `Pop`),
with fuel. -/
def heapDown : Nat → List Process → Nat → Nat → List Process
  | 0, h, _, _ => h
  | fuel + 1, h, i, n =>
    let j1 := 2 * i + 1
    if j1 ≥ n then h
    else
      let j := if 2 * i + 2 < n ∧ heapLess h (2 * i + 2) j1 then 2 * i + 2 else j1
      if heapLess h j i then heapDown fuel (hswap h i j) j n else h

/-- `heap.Init` (called once, on the empty heap): `down(h, i, n)` for
`i := n/2 - 1` down to `0`. -/
def heapInitGo (h : List Process) : Nat → List Process
  | 0 => h
  | k + 1 => heapInitGo (heapDown h.length h k h.length) k

/-- `heap.Init(minHeap)` (line 153). -/
def heapInit (h : List Process) : List Process := heapInitGo h (h.length / 2)

/-- `heap.Push(minHeap, p)`: append, then sift up from the last index. -/
def heapPush (h : List Process) (x : Process) : List Process :=
  heapUp (h ++ [x]) (h.length + 1) h.length

/-- `heap.Pop(minHeap)`: `none` models the index-out-of-range panic Go
hits when the heap is empty. -/
def heapPop (h : List Process) : Option (Process × List Process) :=
  match h with
  | [] => none
  | _ :: _ =>
    let n := h.length - 1
    let h1 := hswap h 0 n
    let h2 := heapDown h.length h1 0 n
    some (hget h2 n, h2.dropLast)

/-! ## Preemptive priority (`SJFPrioritySchedule`, `main.go` lines 133-213) -/
/-- The order `sort.Slice(processes, func(i, j) { return
processes[i].ArrivalTime < processes[j].ArrivalTime })` (lines 149-151)
produces, modelled as a stable insertion sort with the same strict
comparison.  `sort.Slice` itself (`pdqsort`) is embedded further below
as `sortSliceGo`; on slices of at most 12 elements `pdqsort` runs
exactly a plain insertion sort, and `sortSliceGo_short` proves
`sortSliceGo ps = sortByArrival ps` there (a stable sort by a fixed key
is the unique permutation that is both non-decreasing in the key and
keeps equal-key elements in input order).  On longer slices
`sort.Slice` is *not* stable (the C8 stability counterexample exhibits
this at length 13) but still produces some arrival-sorted permutation;
the priority-policy theorems below depend only on that. -/
def insertByArrival (p : Process) : List Process → List Process
  | [] => [p]
  | q :: rest =>
    if p.ArrivalTime ≤ q.ArrivalTime then p :: q :: rest else q :: insertByArrival p rest

/-- The sorted order `SJFPrioritySchedule` works with (and, since
`sort.Slice` mutates the caller's backing array in place, also the order
the caller's slice is left in). -/
def sortByArrival : List Process → List Process
  | [] => []
  | p :: rest => insertByArrival p (sortByArrival rest)

/-- `processesMapIdx` (lines 142, 155-156): a map from ProcessID to index
in the *sorted* slice.  Later writes win; a missing key reads as the Go
zero value 0. -/
def processesMapIdx (sorted : List Process) (pid : Int) : Nat :=
  sorted.enum.foldl (fun acc x => if x.2.ProcessID = pid then x.1 else acc) 0

/-- `tempBurstDuration` (lines 146, 158): the original burst of each
process, indexed like the sorted slice. -/
def tempBurstDuration (sorted : List Process) : List Int :=
  sorted.map Process.BurstDuration

/-- Mutable state of the `for` loop of `SJFPrioritySchedule`
(lines 161-188). -/
structure PrioState where
  heapList        : List Process
  insertedProcess : Nat
  currentTime     : Int
  turnAroundTimes : List Int
  waitingTimes    : List Int
  gantt           : List TimeSlice
deriving Repr

/-- The inner push loop (lines 162-170): for every process of the sorted
slice whose `ArrivalTime` equals `currentTime`, increment
`insertedProcess` and `heap.Push` it.  (The `insertedProcess < n` guard
sits outside this loop and is handled by the caller.) -/
def pushArrivals (sorted : List Process) (st : PrioState) : PrioState :=
  sorted.foldl
    (fun st p =>
      if p.ArrivalTime = st.currentTime then
        { st with insertedProcess := st.insertedProcess + 1,
                  heapList := heapPush st.heapList p }
      else st)
    st

/-- Outcome of one iteration of the priority loop. -/
inductive PrioStepResult where
  | popEmptyPanic
  | more (st : PrioState)
  | done (st : PrioState)
deriving Repr

/-- The execution part of one priority loop iteration (lines 172-183):
the popped process runs for one tick, the timeline and clock advance,
and the process is either pushed back or retired with its statistics. -/
def prioExec (sorted : List Process) (tempBurst : List Int) (st : PrioState)
    (pMin : Process) (h1 : List Process) : PrioState :=
  let pMinPriority := { pMin with BurstDuration := pMin.BurstDuration - 1 }
  let gantt := appendGantt st.gantt pMinPriority st.currentTime
  let currentTime := st.currentTime + 1
  let gantt := setStop gantt currentTime
  if pMinPriority.BurstDuration > 0 then
    { st with heapList := heapPush h1 pMinPriority,
              currentTime := currentTime, gantt := gantt }
  else
    let idx := processesMapIdx sorted pMinPriority.ProcessID
    let turn := currentTime - pMinPriority.ArrivalTime
    { st with heapList := h1, currentTime := currentTime, gantt := gantt,
              turnAroundTimes := st.turnAroundTimes.set idx turn,
              waitingTimes :=
                st.waitingTimes.set idx (turn - tempBurst.getD idx 0) }

/-- One iteration of the priority loop body (lines 161-188). -/
def prioStep (n : Nat) (sorted : List Process) (tempBurst : List Int)
    (st : PrioState) : PrioStepResult :=
  let st := if st.insertedProcess < n then pushArrivals sorted st else st
  match heapPop st.heapList with
  | none => .popEmptyPanic
  | some (pMin, h1) =>
    let st2 := prioExec sorted tempBurst st pMin h1
    if st2.heapList.length = 0 ∧ st2.insertedProcess = n then .done st2 else .more st2

/-- Outcome of the whole priority loop. -/
inductive PrioRunResult where
  | outOfFuel
  | popEmptyPanic
  | finished (st : PrioState)
deriving Repr

/-- The `for { ... }` loop of `SJFPrioritySchedule`, with fuel. -/
def prioLoop (n : Nat) (sorted : List Process) (tempBurst : List Int) :
    Nat → PrioState → PrioRunResult
  | 0, _ => .outOfFuel
  | fuel + 1, st =>
    match prioStep n sorted tempBurst st with
    | .popEmptyPanic => .popEmptyPanic
    | .done st2 => .finished st2
    | .more st2 => prioLoop n sorted tempBurst fuel st2

/-- The result of `SJFPrioritySchedule`, before rendering.  The schedule
table is reported in sorted order, reading `processes[i]` from the
(in-place sorted) slice. -/
structure PrioResult where
  sorted          : List Process
  waitingTimes    : List Int
  turnAroundTimes : List Int
  completionTimes : List Int
  lastCompletion  : Int
  gantt           : List TimeSlice
deriving DecidableEq, Repr

/-- Outcome of `SJFPrioritySchedule`.  `crashed` covers the two runtime
panics the source can hit: reading `processes[0]` of an empty slice
(line 144) and `heap.Pop` on an empty heap (line 172). -/
inductive PrioOutcome where
  | crashed
  | outOfFuel
  | ok (r : PrioResult)
deriving DecidableEq, Repr

/-- `SJFPrioritySchedule` (`main.go` lines 133-213), fuelled.  Note the
order of events in the source: `currentTime` is initialised from
`processes[0].ArrivalTime` in the `var` block (line 144) *before*
`sort.Slice` reorders the slice (lines 149-151). -/
def SJFPrioritySchedule (fuel : Nat) (processes : List Process) : PrioOutcome :=
  match processes with
  | [] => .crashed
  | p0 :: _ =>
    let n := processes.length
    let currentTime := p0.ArrivalTime
    let sorted := sortByArrival processes
    let minHeap := heapInit []
    let tempBurst := tempBurstDuration sorted
    let st0 : PrioState :=
      { heapList := minHeap, insertedProcess := 0, currentTime := currentTime,
        turnAroundTimes := List.replicate n 0, waitingTimes := List.replicate n 0,
        gantt := [] }
    match prioLoop n sorted tempBurst fuel st0 with
    | .outOfFuel => .outOfFuel
    | .popEmptyPanic => .crashed
    | .finished st =>
      let completions :=
        List.zipWith (fun p w => p.BurstDuration + p.ArrivalTime + w)
          sorted st.waitingTimes
      .ok { sorted := sorted
            waitingTimes := st.waitingTimes
            turnAroundTimes := st.turnAroundTimes
            completionTimes := completions
            lastCompletion := completions.foldl (fun last c => if last < c then c else last) 0
            gantt := st.gantt }

/-- Prefix sum of bursts: the value `serviceTime` has after the first `i`
FCFS iterations. -/
def burstPrefix (processes : List Process) (i : Nat) : Int :=
  ((processes.take i).map Process.BurstDuration).sum

/-! ## Facts about the arrival-time sort -/
/-- Sortedness by arrival time (non-decreasing). -/
def arrivalSorted (l : List Process) : Prop :=
  l.Pairwise (fun a b => a.ArrivalTime ≤ b.ArrivalTime)

/-! ## The frame behaviour of the three policies on the caller's slice

`FCFSSchedule` and `SJFSchedule` never assign to an element of
`processes` (`SJFSchedule` keeps its mutable remaining-burst state in the
separate `remainTime` slice), so the caller's slice is unchanged after
they return.  `SJFPrioritySchedule` calls `sort.Slice` on the caller's
slice (lines 149-151), which reorders the shared backing array in place;
the heap then works on copies, so the slice stays in sorted order. -/
/-- Contents of the caller's `processes` slice after `FCFSSchedule`. -/
def fcfsCallerSliceAfter (processes : List Process) : List Process := processes

/-- Contents of the caller's `processes` slice after `SJFSchedule`. -/
def sjfCallerSliceAfter (processes : List Process) : List Process := processes

/-- Contents of the caller's `processes` slice after
`SJFPrioritySchedule`. -/
def priorityCallerSliceAfter (processes : List Process) : List Process :=
  sortByArrival processes

/-! ## `sort.Slice` itself (Go standard library, `sort` package)

`sort.Slice` (lines 149-151) is pattern-defeating quicksort (`pdqsort`,
`sort/zsortfunc.go`, Go 1.19+) and is documented as **not** guaranteed
to be stable.  `pdqsort` runs a plain insertion sort on ranges of at
most 12 elements (`maxInsertion`), so on short slices it is a stable
insertion sort — `sortSliceGo_short` below proves it then computes
exactly `sortByArrival` — but on longer slices the quicksort partition
exchanges distant elements and the order of equal-key elements is lost
(the stability counterexample for C8 exhibits this at length 13).

The functions below are a direct translation of the library code over
the flat slice: `hget`/`hswap` read and swap absolute indices, and the
comparator is the closure the scheduler passes.  Go loops whose counter
decreases to 0 become structural recursion on the counter; the other
loops take explicit fuel, and every call site passes fuel at least the
number of iterations the Go loop can run (`i`-advance loops move toward
`b`, the `pdqsort` loop shrinks `b - a` or raises `a` every iteration),
so the fuel is never the reason a run stops. -/
/-- The comparator closure of lines 149-151:
`processes[i].ArrivalTime < processes[j].ArrivalTime`. -/
def sliceLess (l : List Process) (i j : Nat) : Bool :=
  decide ((hget l i).ArrivalTime < (hget l j).ArrivalTime)

/-- Inner loop of `insertionSort`:
`for j := i; j > a && data.Less(j, j-1); j-- { data.Swap(j, j-1) }`
(structural in `j`; `j = 0` fails `j > a`). -/
def insSortInner (a : Nat) : Nat → List Process → List Process
  | 0, l => l
  | j + 1, l =>
    if a ≤ j then
      if sliceLess l (j + 1) j then insSortInner a j (hswap l (j + 1) j) else l
    else l

/-- Outer loop of `insertionSort`: `for i := a+1; i < b; i++`. -/
def insSortOuter (a b : Nat) : Nat → Nat → List Process → List Process
  | 0, _, l => l
  | fuel + 1, i, l =>
    if i < b then insSortOuter a b fuel (i + 1) (insSortInner a i l) else l

/-- `insertionSort(data, a, b)`: sorts `data[a:b]`. -/
def insertionSortGo (a b : Nat) (l : List Process) : List Process :=
  insSortOuter a b b (a + 1) l

/-- `siftDown(data, lo, hi, first)` of `heapSort` (the max-heap one, not
the scheduler's min-heap).  `lo` only seeds `root`, which is passed
directly; the root index at least doubles every iteration, so fuel `hi`
is enough. -/
def siftDownGo (hi first : Nat) : Nat → Nat → List Process → List Process
  | 0, _, l => l
  | fuel + 1, root, l =>
    let child := 2 * root + 1
    if child ≥ hi then l
    else
      let child :=
        if decide (child + 1 < hi) && sliceLess l (first + child) (first + child + 1) then
          child + 1
        else child
      if sliceLess l (first + root) (first + child) then
        siftDownGo hi first fuel child (hswap l (first + root) (first + child))
      else l

/-- Heap-construction loop of `heapSort`:
`for i := (hi-1)/2; i >= 0; i--`, encoded on the counter `i + 1`. -/
def heapSortBuild (hi first : Nat) : Nat → List Process → List Process
  | 0, l => l
  | i + 1, l => heapSortBuild hi first i (siftDownGo hi first hi i l)

/-- Pop loop of `heapSort`: `for i := hi-1; i >= 0; i--
{ data.Swap(first, first+i); siftDown(data, 0, i, first) }`. -/
def heapSortPop (first : Nat) : Nat → List Process → List Process
  | 0, l => l
  | i + 1, l => heapSortPop first i (siftDownGo i first i 0 (hswap l first (first + i)))

/-- `heapSort(data, a, b)` (the `limit = 0` fallback of `pdqsort`). -/
def heapSortGo (a b : Nat) (l : List Process) : List Process :=
  heapSortPop a (b - a) (heapSortBuild (b - a) a ((b - a - 1) / 2 + 1) l)

/-- `bits.Len` (bits needed to represent `n`; `bits.Len(0) = 0`), with
fuel `n`, enough since the bit count of a positive `n` is at most `n`. -/
def bitsLenAux : Nat → Nat → Nat
  | 0, _ => 0
  | fuel + 1, n => if n = 0 then 0 else bitsLenAux fuel (n / 2) + 1

/-- `bits.Len(uint(n))`. -/
def bitsLen (n : Nat) : Nat := bitsLenAux n n

/-- `nextPowerOfTwo(length) = 1 << bits.Len(uint(length))`. -/
def nextPowerOfTwo (length : Nat) : Nat := 2 ^ bitsLen length

/-- One step of the `xorshift` generator `breakPatterns` uses (`uint64`
state; the left shifts wrap modulo `2^64`). -/
def xorshiftNext (r : Nat) : Nat :=
  let r := (Nat.xor r ((r <<< 13) % 2 ^ 64)) % 2 ^ 64
  let r := (Nat.xor r (r >>> 7)) % 2 ^ 64
  (Nat.xor r ((r <<< 17) % 2 ^ 64)) % 2 ^ 64

/-- The 3-iteration scatter loop of `breakPatterns`
(`other := int(uint(random.Next()) & (modulus - 1))`, reduced once by
`length` if too large, then `data.Swap(idx-1+i, a+other)`). -/
def breakPatternsLoop (a len modulus idx : Nat) :
    Nat → Nat → Nat → List Process → List Process
  | 0, _, _, l => l
  | k + 1, i, r, l =>
    let r := xorshiftNext r
    let other := Nat.land r (modulus - 1)
    let other := if other ≥ len then other - len else other
    breakPatternsLoop a len modulus idx k (i + 1) r (hswap l (idx - 1 + i) (a + other))

/-- `breakPatterns(data, a, b)`: scatters three elements around the
middle; a no-op on ranges shorter than 8.  The generator is seeded with
the range length, `idx := a + (length/4)*2 - 1`. -/
def breakPatternsGo (a b : Nat) (l : List Process) : List Process :=
  let len := b - a
  if len ≥ 8 then
    breakPatternsLoop a len (nextPowerOfTwo len) (a + len / 4 * 2 - 1) 3 0 len l
  else l

/-- `sortedHint` (`unknownHint`, `increasingHint`, `decreasingHint`). -/
inductive SortedHint
  | unknown
  | increasing
  | decreasing
deriving DecidableEq

/-- `order2(data, a, b, &swaps)`: the two indices with the smaller
element's first, counting an inversion. -/
def order2Go (l : List Process) (a b swaps : Nat) : Nat × Nat × Nat :=
  if sliceLess l b a then (b, a, swaps + 1) else (a, b, swaps)

/-- `median(data, a, b, c, &swaps)`: the index of the median of three
(`a, b = order2(a, b); b, c = order2(b, c); a, b = order2(a, b);
return b`). -/
def medianGo (l : List Process) (a b c swaps : Nat) : Nat × Nat :=
  let x := order2Go l a b swaps
  let y := order2Go l x.2.1 c x.2.2
  let z := order2Go l x.1 y.1 y.2.2
  (z.2.1, z.2.2)

/-- `medianAdjacent(data, a, &swaps) = median(data, a-1, a, a+1, &swaps)`. -/
def medianAdjacentGo (l : List Process) (a swaps : Nat) : Nat × Nat :=
  medianGo l (a - 1) a (a + 1) swaps

/-- `choosePivot(data, a, b)`: fixed pivot below length 8, median of
three below `shortestNinther = 50`, Tukey ninther above; the swap count
0 means `increasingHint`, `maxSwaps = 12` means `decreasingHint`. -/
def choosePivotGo (l : List Process) (a b : Nat) : Nat × SortedHint :=
  let len := b - a
  let i := a + len / 4 * 1
  let j := a + len / 4 * 2
  let k := a + len / 4 * 3
  let js :=
    if len ≥ 8 then
      if len ≥ 50 then
        let i2 := medianAdjacentGo l i 0
        let j2 := medianAdjacentGo l j i2.2
        let k2 := medianAdjacentGo l k j2.2
        medianGo l i2.1 j2.1 k2.1 k2.2
      else medianGo l i j k 0
    else (j, 0)
  if js.2 = 0 then (js.1, SortedHint.increasing)
  else if js.2 = 12 then (js.1, SortedHint.decreasing)
  else (js.1, SortedHint.unknown)

/-- The scan `for i < b && !data.Less(i, i-1) { i++ }` of
`partialInsertionSort`. -/
def advanceSortedIdx (b : Nat) : Nat → Nat → List Process → Nat
  | 0, i, _ => i
  | fuel + 1, i, l =>
    if i < b then
      if sliceLess l i (i - 1) then i else advanceSortedIdx b fuel (i + 1) l
    else i

/-- Left shift of `partialInsertionSort`: `for j := i-1; j >= 1; j--`
with `break` on `!data.Less(j, j-1)` and `data.Swap(j, j-1)`. -/
def shiftLeftGo : Nat → List Process → List Process
  | 0, l => l
  | j + 1, l =>
    if sliceLess l (j + 1) j then shiftLeftGo j (hswap l (j + 1) j) else l

/-- Right shift of `partialInsertionSort`: `for j := i+1; j < b; j++`
with `break` on `!data.Less(j, j-1)` and `data.Swap(j, j-1)`. -/
def shiftRightGo (b : Nat) : Nat → Nat → List Process → List Process
  | 0, _, l => l
  | fuel + 1, j, l =>
    if j < b then
      if sliceLess l j (j - 1) then shiftRightGo b fuel (j + 1) (hswap l j (j - 1)) else l
    else l

/-- The `maxSteps = 5` loop of `partialInsertionSort`
(`shortestShifting = 50`): returns whether the range ended sorted,
together with the slice. -/
def partialInsSortLoop (a b : Nat) : Nat → Nat → List Process → Bool × List Process
  | 0, _, l => (false, l)
  | steps + 1, i, l =>
    let i := advanceSortedIdx b b i l
    if i = b then (true, l)
    else if b - a < 50 then (false, l)
    else
      let l := hswap l i (i - 1)
      let l := if i - a ≥ 2 then shiftLeftGo (i - 1) l else l
      let l := if b - i ≥ 2 then shiftRightGo b b (i + 1) l else l
      partialInsSortLoop a b steps i l

/-- `partialInsertionSort(data, a, b)`. -/
def partialInsertionSortGo (a b : Nat) (l : List Process) : Bool × List Process :=
  partialInsSortLoop a b 5 (a + 1) l

/-- The swap loop of `reverseRange`. -/
def revRangeLoop : Nat → Nat → Nat → List Process → List Process
  | 0, _, _, l => l
  | fuel + 1, i, j, l => if i < j then revRangeLoop fuel (i + 1) (j - 1) (hswap l i j) else l

/-- `reverseRange(data, a, b)`. -/
def reverseRangeGo (a b : Nat) (l : List Process) : List Process :=
  revRangeLoop b a (b - 1) l

/-- The `i`-advance of `partition`: `for i <= j && data.Less(i, a) { i++ }`. -/
def partAdvanceI (l : List Process) (a j : Nat) : Nat → Nat → Nat
  | 0, i => i
  | fuel + 1, i =>
    if i ≤ j then
      if sliceLess l i a then partAdvanceI l a j fuel (i + 1) else i
    else i

/-- The `j`-retreat of `partition`: `for i <= j && !data.Less(j, a) { j-- }`
(structural in `j`; at `j = 0` it returns `0`, and indeed `i ≥ a+1 ≥ 1`
at every call, so the Go loop has stopped by then). -/
def partRetreatJ (l : List Process) (a i : Nat) : Nat → Nat
  | 0 => 0
  | j + 1 =>
    if i ≤ j + 1 then
      if sliceLess l (j + 1) a then j + 1 else partRetreatJ l a i j
    else j + 1

/-- The exchange loop of `partition` after its first crossing test
(`advance i; retreat j; if i > j break; Swap(i, j); i++; j--`). -/
def partLoop (a b : Nat) : Nat → Nat → Nat → List Process → Nat × List Process
  | 0, _, j, l => (j, l)
  | fuel + 1, i, j, l =>
    let i := partAdvanceI l a j b i
    let j := partRetreatJ l a i j
    if i > j then (j, l)
    else partLoop a b fuel (i + 1) (j - 1) (hswap l i j)

/-- `partition(data, a, b, pivot)`: `Swap(a, pivot)`, one advance/retreat
round (an immediate crossing means the range was already partitioned),
then the exchange loop; finally `Swap(j, a)` puts the pivot in place.
Returns `(newpivot, alreadyPartitioned, slice)`. -/
def partitionGo (a b pivot : Nat) (l : List Process) : Nat × Bool × List Process :=
  let l := hswap l a pivot
  let i := partAdvanceI l a (b - 1) b (a + 1)
  let j := partRetreatJ l a i (b - 1)
  if i > j then (j, true, hswap l j a)
  else
    let lj := partLoop a b b (i + 1) (j - 1) (hswap l i j)
    (lj.1, false, hswap lj.2 lj.1 a)

/-- The `i`-advance of `partitionEqual`:
`for i <= j && !data.Less(a, i) { i++ }`. -/
def partEqAdvanceI (l : List Process) (a j : Nat) : Nat → Nat → Nat
  | 0, i => i
  | fuel + 1, i =>
    if i ≤ j then
      if sliceLess l a i then i else partEqAdvanceI l a j fuel (i + 1)
    else i

/-- The `j`-retreat of `partitionEqual`:
`for i <= j && data.Less(a, j) { j-- }`. -/
def partEqRetreatJ (l : List Process) (a i : Nat) : Nat → Nat
  | 0 => 0
  | j + 1 =>
    if i ≤ j + 1 then
      if sliceLess l a (j + 1) then partEqRetreatJ l a i j else j + 1
    else j + 1

/-- The exchange loop of `partitionEqual`, returning the final `i`. -/
def partEqLoop (a b : Nat) : Nat → Nat → Nat → List Process → Nat × List Process
  | 0, i, _, l => (i, l)
  | fuel + 1, i, j, l =>
    let i := partEqAdvanceI l a j b i
    let j := partEqRetreatJ l a i j
    if i > j then (i, l)
    else partEqLoop a b fuel (i + 1) (j - 1) (hswap l i j)

/-- `partitionEqual(data, a, b, pivot)`: partitions into elements equal
to the pivot followed by greater ones. -/
def partitionEqualGo (a b pivot : Nat) (l : List Process) : Nat × List Process :=
  partEqLoop a b b (a + 1) (b - 1) (hswap l a pivot)

/-- `pdqsort(data, a, b, limit)`.  The loop state is `(a, b, limit,
wasBalanced, wasPartitioned)`; the recursive call on the shorter side
starts from `wasBalanced = wasPartitioned = true` again, like the Go
function's fresh locals.  Ranges of at most `maxInsertion = 12`
elements go to `insertionSort`; `limit = 0` falls back to `heapSort`;
an imbalanced previous split runs `breakPatterns`; a `decreasingHint`
reverses the range and mirrors the pivot; a likely-sorted range tries
`partialInsertionSort` (whose swaps persist even when it gives up); a
pivot equal to `data[a-1]` runs `partitionEqual` and continues right of
the equal run; otherwise `partition` splits and the shorter side is
sorted by the recursive call. -/
def pdqsortGo : Nat → Nat → Nat → Nat → Bool → Bool → List Process → List Process
  | 0, _, _, _, _, _, l => l
  | fuel + 1, a, b, limit, wasBalanced, wasPartitioned, l =>
    let length := b - a
    if length ≤ 12 then insertionSortGo a b l
    else if limit = 0 then heapSortGo a b l
    else
      let l := if wasBalanced then l else breakPatternsGo a b l
      let limit := if wasBalanced then limit else limit - 1
      let ph := choosePivotGo l a b
      let l := if ph.2 = SortedHint.decreasing then reverseRangeGo a b l else l
      let pivot := if ph.2 = SortedHint.decreasing then b - 1 - (ph.1 - a) else ph.1
      let hint := if ph.2 = SortedHint.decreasing then SortedHint.increasing else ph.2
      let early :=
        if wasBalanced && wasPartitioned && decide (hint = SortedHint.increasing) then
          partialInsertionSortGo a b l
        else (false, l)
      if early.1 then early.2
      else
        let l := early.2
        if decide (0 < a) && !(sliceLess l (a - 1) pivot) then
          let ml := partitionEqualGo a b pivot l
          pdqsortGo fuel ml.1 b limit wasBalanced wasPartitioned ml.2
        else
          let mal := partitionGo a b pivot l
          let mid := mal.1
          let ap := mal.2.1
          let l := mal.2.2
          let leftLen := mid - a
          let rightLen := b - mid
          let wasBalanced2 := decide (min leftLen rightLen ≥ length / 8)
          if leftLen < rightLen then
            let l := pdqsortGo fuel a mid limit true true l
            pdqsortGo fuel (mid + 1) b limit wasBalanced2 ap l
          else
            let l := pdqsortGo fuel (mid + 1) b limit true true l
            pdqsortGo fuel a mid limit wasBalanced2 ap l

/-- `sort.Slice(x, less)` itself:
`pdqsort(lessSwap, 0, length, bits.Len(uint(length)))`. -/
def sortSliceGo (ps : List Process) : List Process :=
  pdqsortGo (ps.length + 64) 0 ps.length (bitsLen ps.length) true true ps

/-- The insert step of Go's `insertionSort` seen on whole lists: the
element bubbles left past strictly greater keys only, so it lands
*after* every element with an equal or smaller key (the left-to-right
mirror of `insertByArrival`, equally stable). -/
def insertTail : List Process → Process → List Process
  | [], x => [x]
  | y :: rest, x =>
    if x.ArrivalTime < y.ArrivalTime then x :: y :: rest else y :: insertTail rest x

/-! ## Window bookkeeping for the priority loop -/
/-- The processes the loop has pushed so far: those whose arrival time
has already been a value of `currentTime` (which visits
`T0, T0+1, ..., T-1` before the loop iteration at `T`). -/
def pushedWindow (sorted : List Process) (T0 T : Int) : List Process :=
  sorted.filter (fun p => decide (T0 ≤ p.ArrivalTime ∧ p.ArrivalTime < T))

/-! ## The gantt step of the priority loop -/
/-- The timeline invariant carried by the priority loop: either nothing
has been recorded yet (and no tick has executed), or the last slice's
stop equals the clock, the timeline is well-formed, and its total length
is the number of executed ticks. -/
def ganttInv (gantt : List TimeSlice) (T0 T : Int) : Prop :=
  (gantt = [] ∧ T = T0) ∨
    (lastPid gantt ≠ none ∧ gantt.getLast?.map TimeSlice.Stop = some T ∧
      ganttWellFormed gantt ∧ ganttTotalLen gantt = T - T0)

/-! ## The loop invariant of `SJFPrioritySchedule` -/
/-- The closed-window variant of `pushedWindow`, describing the pushed
set right after the push phase of the iteration at tick `T`. -/
def pushedWindowLe (sorted : List Process) (T0 T : Int) : List Process :=
  sorted.filter (fun p => decide (T0 ≤ p.ArrivalTime ∧ p.ArrivalTime ≤ T))

/-- Bookkeeping for one heap entry: it is a copy (made by `heap.Push`)
of the sorted process at some index, whose `BurstDuration` field has
been decremented once per executed tick; the executed amount is bounded
by the clock since the copy was pushed at its arrival time. -/
def HeapElem (sorted : List Process) (T : Int) (q : Process) : Prop :=
  ∃ i, i < sorted.length ∧
    (sorted.getD i default).ProcessID = q.ProcessID ∧
    q.ArrivalTime = (sorted.getD i default).ArrivalTime ∧
    0 < q.BurstDuration ∧
    q.BurstDuration ≤ (sorted.getD i default).BurstDuration ∧
    (sorted.getD i default).ArrivalTime +
      ((sorted.getD i default).BurstDuration - q.BurstDuration) ≤ T

/-- A finished process's statistics, as written by the completion branch
(lines 179-183): reading the arrays through `processesMapIdx`, the
turnaround is burst + waiting and the waiting time is non-negative. -/
def WrAt (sorted : List Process) (turnA waitA : List Int) (pid : Int) : Prop :=
  processesMapIdx sorted pid < sorted.length ∧
  (sorted.getD (processesMapIdx sorted pid) default).ProcessID = pid ∧
  turnA.getD (processesMapIdx sorted pid) 0 =
    (sorted.getD (processesMapIdx sorted pid) default).BurstDuration +
      waitA.getD (processesMapIdx sorted pid) 0 ∧
  0 ≤ waitA.getD (processesMapIdx sorted pid) 0

/-- The core invariant, relative to a multiset `win` of already-pushed
processes: the ids in the heap plus the ids of finished processes are
exactly the pushed ids; heap entries are consistent copies; finished
entries have correct statistics; total executed work `currentTime - T0`
balances pushed bursts against remaining heap bursts; and the timeline
records exactly the executed ticks. -/
def prioCore (sorted : List Process) (T0 : Int) (win : List Process) (st : PrioState) : Prop :=
  st.turnAroundTimes.length = sorted.length ∧
  st.waitingTimes.length = sorted.length ∧
  st.insertedProcess = win.length ∧
  ∃ fids : List Int,
    (st.heapList.map Process.ProcessID ++ fids).Perm (win.map Process.ProcessID) ∧
    (∀ q ∈ st.heapList, HeapElem sorted st.currentTime q) ∧
    (∀ pid ∈ fids, WrAt sorted st.turnAroundTimes st.waitingTimes pid) ∧
    sumInts (win.map Process.BurstDuration) =
      sumInts (st.heapList.map Process.BurstDuration) + (st.currentTime - T0) ∧
    ganttInv st.gantt T0 st.currentTime

/-- The invariant at the top of each loop iteration. -/
def PrioInv (sorted : List Process) (T0 : Int) (st : PrioState) : Prop :=
  T0 ≤ st.currentTime ∧
  prioCore sorted T0 (pushedWindow sorted T0 st.currentTime) st

/-! ## Concrete inputs used by the scenario claims and counterexamples -/
/-- The FCFS scenario input: P1(burst 4, arrival 0), P2(burst 3,
arrival 1), P3(burst 2, arrival 2). -/
def exFCFS3 : List Process := [⟨1, 0, 4, 0⟩, ⟨2, 1, 3, 0⟩, ⟨3, 2, 2, 0⟩]

/-- The SRTF scenario input: P1(burst 5, arrival 0), P2(burst 2,
arrival 1). -/
def exSRTF2 : List Process := [⟨1, 0, 5, 0⟩, ⟨2, 1, 2, 0⟩]

/-- A tie between the running process and a lower-index process:
P1(burst 3, arrival 1), P2(burst 4, arrival 0). -/
def exTie : List Process := [⟨1, 1, 3, 0⟩, ⟨2, 0, 4, 0⟩]

/-- Two processes that both arrive at time 0. -/
def exZeroArrivals : List Process := [⟨1, 0, 4, 0⟩, ⟨2, 0, 3, 0⟩]

/-- A single process arriving at time 5. -/
def exLateSingle : List Process := [⟨1, 5, 2, 0⟩]

/-- Two processes with an idle gap: P1(burst 1, arrival 0),
P2(burst 1, arrival 2) — no process is ready at tick 1. -/
def exGap : List Process := [⟨1, 0, 1, 0⟩, ⟨2, 2, 1, 0⟩]

/-- A simple two-process priority input: P1(burst 2, arrival 0,
priority 2), P2(burst 1, arrival 0, priority 1). -/
def exPrio : List Process := [⟨1, 0, 2, 2⟩, ⟨2, 0, 1, 1⟩]

/-- An input whose first process is not the earliest arrival. -/
def exUnsorted : List Process := [⟨1, 5, 1, 0⟩, ⟨2, 0, 1, 0⟩]

/-- Thirteen processes — one more than `pdqsort`'s insertion-sort
cutoff `maxInsertion = 12` — with arrival times
`[2,0,0,1,0,0,3,0,0,2,0,0,2]` and process ids 1..13 in input order:
the input of the C8 stability counterexample. -/
def exPdq13 : List Process :=
  [⟨1, 2, 1, 0⟩, ⟨2, 0, 1, 0⟩, ⟨3, 0, 1, 0⟩, ⟨4, 1, 1, 0⟩, ⟨5, 0, 1, 0⟩,
   ⟨6, 0, 1, 0⟩, ⟨7, 3, 1, 0⟩, ⟨8, 0, 1, 0⟩, ⟨9, 0, 1, 0⟩, ⟨10, 2, 1, 0⟩,
   ⟨11, 0, 1, 0⟩, ⟨12, 0, 1, 0⟩, ⟨13, 2, 1, 0⟩]

/-- The body of `SJFPrioritySchedule` with the initial simulation clock
made an explicit parameter, used to state where the clock comes from. -/
def priorityRunFrom (fuel : Nat) (processes : List Process) (startClock : Int) : PrioOutcome :=
  match processes with
  | [] => .crashed
  | _ :: _ =>
    let n := processes.length
    let currentTime := startClock
    let sorted := sortByArrival processes
    let minHeap := heapInit []
    let tempBurst := tempBurstDuration sorted
    let st0 : PrioState :=
      { heapList := minHeap, insertedProcess := 0, currentTime := currentTime,
        turnAroundTimes := List.replicate n 0, waitingTimes := List.replicate n 0,
        gantt := [] }
    match prioLoop n sorted tempBurst fuel st0 with
    | .outOfFuel => .outOfFuel
    | .popEmptyPanic => .crashed
    | .finished st =>
      let completions :=
        List.zipWith (fun p w => p.BurstDuration + p.ArrivalTime + w)
          sorted st.waitingTimes
      .ok { sorted := sorted
            waitingTimes := st.waitingTimes
            turnAroundTimes := st.turnAroundTimes
            completionTimes := completions
            lastCompletion := completions.foldl (fun last c => if last < c then c else last) 0
            gantt := st.gantt }

/-- The result `SJFSchedule` produces on `exSRTF2` (note the first
slice's `Stop` is never closed and keeps the zero value 0). -/
def srtfC5Result : SRTFResult :=
  { waitingTimes := [2, 0], turnaroundTimes := [7, 2], completionTimes := [7, 3],
    lastCompletion := 7,
    gantt := [⟨1, 0, 0⟩, ⟨2, 1, 3⟩, ⟨1, 3, 7⟩] }

/-- The result `SJFPrioritySchedule` produces on `exPrio`. -/
def prioExResult : PrioResult :=
  { sorted := [⟨1, 0, 2, 2⟩, ⟨2, 0, 1, 1⟩], waitingTimes := [1, 0],
    turnAroundTimes := [3, 1], completionTimes := [3, 1], lastCompletion := 3,
    gantt := [⟨2, 0, 1⟩, ⟨1, 1, 3⟩] }

/-! ## Theorems -/

/-! ## Basic lemmas -/
theorem sumInts_eq_sum (l : List Int) : sumInts l = l.sum := by
  suffices h : ∀ (l : List Int) (a : Int), l.foldl (fun s n => s + n) a = a + l.sum by
    simpa using h l 0
  intro l
  induction l with
  | nil => simp
  | cons x xs ih => intro a; simp [List.foldl_cons, ih, add_assoc]

theorem fcfsRun_waiting_length (serviceTime waitingTime : Int) (ps : List Process) :
    (fcfsRun serviceTime waitingTime ps).1.length = ps.length := by
  induction ps generalizing serviceTime waitingTime with
  | nil => rfl
  | cons p rest ih => simp [fcfsRun, ih]

theorem fcfsRun_stats (serviceTime waitingTime : Int) (ps : List Process)
    (i : Nat) (hi : i < ps.length) :
    (fcfsRun serviceTime waitingTime ps).2.1.getD i 0 =
        (ps.getD i default).BurstDuration + (fcfsRun serviceTime waitingTime ps).1.getD i 0 ∧
      (fcfsRun serviceTime waitingTime ps).2.2.1.getD i 0 =
        (ps.getD i default).BurstDuration + (ps.getD i default).ArrivalTime +
          (fcfsRun serviceTime waitingTime ps).1.getD i 0 := by
  induction ps generalizing serviceTime waitingTime i with
  | nil => simp at hi
  | cons p rest ih =>
    cases i with
    | zero => simp [fcfsRun]
    | succ j =>
      have hj : j < rest.length := by simpa using hi
      simpa [fcfsRun] using
        ih (serviceTime + p.BurstDuration)
          (if p.ArrivalTime > 0 then serviceTime - p.ArrivalTime else waitingTime) j hj

/-- The carried-accumulator recurrence of the FCFS waiting times, over an
arbitrary starting state, together with the service-time bookkeeping
(`gantt[i].Stop` is the post-increment `serviceTime`). -/
theorem fcfsRun_waiting_rec (serviceTime waitingTime : Int) (ps : List Process)
    (i : Nat) (hi : i < ps.length) :
    ((fcfsRun serviceTime waitingTime ps).1.getD i 0 =
        (if (ps.getD i default).ArrivalTime > 0 then
          (serviceTime + burstPrefix ps i) - (ps.getD i default).ArrivalTime
        else if i = 0 then waitingTime
        else (fcfsRun serviceTime waitingTime ps).1.getD (i - 1) 0)) ∧
      ((fcfsRun serviceTime waitingTime ps).2.2.2.getD i default).Stop =
        serviceTime + burstPrefix ps (i + 1) := by
  induction ps generalizing serviceTime waitingTime i with
  | nil => simp at hi
  | cons p rest ih =>
    have hcons1 : (fcfsRun serviceTime waitingTime (p :: rest)).1 =
        (if p.ArrivalTime > 0 then serviceTime - p.ArrivalTime else waitingTime) ::
          (fcfsRun (serviceTime + p.BurstDuration)
            (if p.ArrivalTime > 0 then serviceTime - p.ArrivalTime else waitingTime) rest).1 := by
      simp [fcfsRun]
    have hcons4 : (fcfsRun serviceTime waitingTime (p :: rest)).2.2.2.getD 0 default =
        { PID := p.ProcessID,
          Start := (if p.ArrivalTime > 0 then serviceTime - p.ArrivalTime else waitingTime) +
            p.ArrivalTime,
          Stop := serviceTime + p.BurstDuration } := by
      simp [fcfsRun]
    have hpre : ∀ k, burstPrefix (p :: rest) (k + 1) = p.BurstDuration + burstPrefix rest k := by
      intro k; simp [burstPrefix]
    cases i with
    | zero =>
      constructor
      · rw [hcons1]
        simp only [List.getD_cons_zero]
        by_cases h : p.ArrivalTime > 0
        · simp [h, burstPrefix]
        · simp [h]
      · rw [hcons4, hpre 0]
        simp [burstPrefix]
    | succ j =>
      have hj : j < rest.length := by simpa using hi
      obtain ⟨h2w, h2s⟩ := ih (serviceTime + p.BurstDuration)
        (if p.ArrivalTime > 0 then serviceTime - p.ArrivalTime else waitingTime) j hj
      constructor
      · rw [hcons1]
        simp only [List.getD_cons_succ]
        rw [h2w]
        by_cases h : (rest.getD j default).ArrivalTime > 0
        · rw [if_pos h, if_pos h, hpre j]
          ring
        · rw [if_neg h, if_neg h, if_neg (Nat.succ_ne_zero j)]
          cases j with
          | zero => simp
          | succ k => simp
      · rw [show (fcfsRun serviceTime waitingTime (p :: rest)).2.2.2.getD (j + 1) default =
              (fcfsRun (serviceTime + p.BurstDuration)
                (if p.ArrivalTime > 0 then serviceTime - p.ArrivalTime else waitingTime)
                rest).2.2.2.getD j default by simp [fcfsRun]]
        rw [h2s, hpre]
        ring

/-! ## The SRTF scan characterisation -/
theorem mem_enumFrom_le {α : Type} {n : Nat} {l : List α} {x : Nat × α}
    (hx : x ∈ List.enumFrom n l) : n ≤ x.1 := by
  induction l generalizing n with
  | nil => simp at hx
  | cons a rest ih =>
    have hx2 : x ∈ (n, a) :: List.enumFrom (n + 1) rest := hx
    rcases List.mem_cons.mp hx2 with h | h
    · rw [h]
    · exact Nat.le_of_succ_le (ih h)

theorem enumFrom_pairwise {α : Type} (n : Nat) (l : List α) :
    (List.enumFrom n l).Pairwise (fun a b => a.1 < b.1) := by
  induction l generalizing n with
  | nil => simp
  | cons a rest ih =>
    refine List.Pairwise.cons ?_ (ih (n + 1))
    intro y hy
    exact Nat.lt_of_succ_le (mem_enumFrom_le hy)

theorem enum_pairwise {α : Type} (l : List α) :
    l.enum.Pairwise (fun a b => a.1 < b.1) := enumFrom_pairwise 0 l

/-- Characterisation of the scan fold: starting from the carried
threshold `minR`, either no entry improves on it (then the state triple
is returned unchanged), or the result selects, among the entries that do
improve on it, the one with the smallest remaining burst, ties broken by
lowest index. -/
theorem srtfScanGo_spec (t : Int) (l : List (Nat × Process × Int))
    (hl : l.Pairwise (fun a b => a.1 < b.1)) (minR : Int) (cur : Nat) (chk : Bool) :
    (l.filter (srtfImproves t minR) = [] →
      srtfScanGo t l (minR, cur, chk) = (minR, cur, chk)) ∧
    (l.filter (srtfImproves t minR) ≠ [] →
      ∃ x ∈ l.filter (srtfImproves t minR),
        srtfScanGo t l (minR, cur, chk) = (x.2.2, x.1, true) ∧
        ∀ y ∈ l.filter (srtfImproves t minR),
          x.2.2 < y.2.2 ∨ (x.2.2 = y.2.2 ∧ x.1 ≤ y.1)) := by
  induction l generalizing minR cur chk with
  | nil => exact ⟨fun _ => rfl, fun h => absurd rfl h⟩
  | cons x0 rest ih =>
    obtain ⟨hx0rest, hrestpw⟩ := List.pairwise_cons.mp hl
    by_cases hx : srtfImproves t minR x0 = true
    · have himp : (x0.2.1.ArrivalTime ≤ t ∧ x0.2.2 < minR ∧ x0.2.2 > 0) := by
        simpa [srtfImproves] using hx
      have hstep : srtfScanGo t (x0 :: rest) (minR, cur, chk) =
          srtfScanGo t rest (x0.2.2, x0.1, true) := by
        obtain ⟨i, p, r⟩ := x0
        simp only [srtfScanGo, if_pos (show p.ArrivalTime ≤ t ∧ r < minR ∧ r > 0 from himp)]
      have hfil : (x0 :: rest).filter (srtfImproves t minR) =
          x0 :: rest.filter (srtfImproves t minR) := by
        simp [List.filter_cons, hx]
      obtain ⟨ihA, ihB⟩ := ih hrestpw x0.2.2 x0.1 true
      constructor
      · intro hnil; rw [hfil] at hnil; exact absurd hnil (List.cons_ne_nil _ _)
      · intro _
        by_cases hrest : rest.filter (srtfImproves t x0.2.2) = []
        · refine ⟨x0, by rw [hfil]; exact List.mem_cons_self x0 _, by rw [hstep, ihA hrest], ?_⟩
          intro y hy
          rw [hfil] at hy
          rcases List.mem_cons.mp hy with hy0 | hy1
          · subst hy0; exact Or.inr ⟨rfl, Nat.le_refl _⟩
          · have hymem : y ∈ rest := List.mem_of_mem_filter hy1
            have hyimp : srtfImproves t minR y = true := List.of_mem_filter hy1
            have hynot : ¬ srtfImproves t x0.2.2 y = true := by
              intro hc
              have : y ∈ rest.filter (srtfImproves t x0.2.2) := List.mem_filter.mpr ⟨hymem, hc⟩
              rw [hrest] at this; simp at this
            have hyle : x0.2.2 ≤ y.2.2 := by
              simp only [srtfImproves, decide_eq_true_eq] at hyimp hynot
              omega
            rcases lt_or_eq_of_le hyle with hlt | heq
            · exact Or.inl hlt
            · exact Or.inr ⟨heq, Nat.le_of_lt (hx0rest y hymem)⟩
        · obtain ⟨x, hxmem, hxeq, hxmin⟩ := ihB hrest
          have hxrest : x ∈ rest := List.mem_of_mem_filter hxmem
          have hximp : srtfImproves t x0.2.2 x = true := List.of_mem_filter hxmem
          have hxlt : x.2.2 < x0.2.2 := by
            simp only [srtfImproves, decide_eq_true_eq] at hximp
            exact hximp.2.1
          have hximpminR : srtfImproves t minR x = true := by
            simp only [srtfImproves, decide_eq_true_eq] at hximp ⊢
            exact ⟨hximp.1, lt_trans hximp.2.1 himp.2.1, hximp.2.2⟩
          refine ⟨x, ?_, ?_, ?_⟩
          · rw [hfil]
            exact List.mem_cons_of_mem _ (List.mem_filter.mpr ⟨hxrest, hximpminR⟩)
          · rw [hstep, hxeq]
          intro y hy
          rw [hfil] at hy
          rcases List.mem_cons.mp hy with hy0 | hy1
          · subst hy0; exact Or.inl hxlt
          · have hymem : y ∈ rest := List.mem_of_mem_filter hy1
            have hyimp : srtfImproves t minR y = true := List.of_mem_filter hy1
            by_cases hyx0 : srtfImproves t x0.2.2 y = true
            · exact hxmin y (List.mem_filter.mpr ⟨hymem, hyx0⟩)
            · have hyge : x0.2.2 ≤ y.2.2 := by
                simp only [srtfImproves, decide_eq_true_eq] at hyimp hyx0
                omega
              exact Or.inl (lt_of_lt_of_le hxlt hyge)
    · have hstep : srtfScanGo t (x0 :: rest) (minR, cur, chk) =
          srtfScanGo t rest (minR, cur, chk) := by
        obtain ⟨i, p, r⟩ := x0
        have : ¬ (p.ArrivalTime ≤ t ∧ r < minR ∧ r > 0) := by
          simpa [srtfImproves] using hx
        simp only [srtfScanGo, if_neg this]
      have hfil : (x0 :: rest).filter (srtfImproves t minR) =
          rest.filter (srtfImproves t minR) := by
        simp [List.filter_cons, hx]
      obtain ⟨ihA, ihB⟩ := ih hrestpw minR cur chk
      rw [hfil, hstep]
      exact ⟨ihA, ihB⟩

/-- If the scan comes back with `isCheck = false`, it changed nothing. -/
theorem srtfScan_of_not_check (ps : List Process) (remain : List Int) (t minR : Int)
    (cur : Nat) (chk : Bool)
    (h : (srtfScan ps remain t minR cur chk).2.2 = false) :
    srtfScan ps remain t minR cur chk = (minR, cur, chk) := by
  obtain ⟨hA, hB⟩ :=
    srtfScanGo_spec t ((ps.zip remain).enum) (enum_pairwise _) minR cur chk
  by_cases hnil : ((ps.zip remain).enum).filter (srtfImproves t minR) = []
  · exact hA hnil
  · obtain ⟨x, _, heq, _⟩ := hB hnil
    have : (srtfScan ps remain t minR cur chk).2.2 = true := by
      show (srtfScanGo t ((ps.zip remain).enum) (minR, cur, chk)).2.2 = true
      rw [heq]
    rw [this] at h
    exact absurd h (by simp)

/-- An idle tick: when the scan leaves `isCheck` false, the loop body
only advances `t` (nothing is recorded in the timeline). -/
theorem srtfStep_idle (ps : List Process) (st : SRTFState)
    (h : (srtfScan ps st.remainTime st.t st.minRemainTime st.curIdx st.isCheck).2.2 = false) :
    srtfStep ps st = { st with t := st.t + 1 } := by
  have heq := srtfScan_of_not_check ps st.remainTime st.t st.minRemainTime st.curIdx st.isCheck h
  have hchk : st.isCheck = false := by
    rw [heq] at h
    exact h
  unfold srtfStep
  rw [heq]
  simp [hchk]

theorem srtfStep_waiting_nonneg (ps : List Process) (st : SRTFState)
    (h : ∀ x ∈ st.waitingTimes, 0 ≤ x) :
    ∀ x ∈ (srtfStep ps st).waitingTimes, 0 ≤ x := by
  unfold srtfStep
  dsimp only
  split
  · exact h
  · split
    · intro x hx
      rcases List.mem_or_eq_of_mem_set hx with hx1 | hx2
      · exact h x hx1
      · rw [hx2]
        split <;> omega
    · exact h

theorem srtfLoop_waiting_nonneg (ps : List Process) :
    ∀ (fuel : Nat) (st st2 : SRTFState),
    (∀ x ∈ st.waitingTimes, 0 ≤ x) → srtfLoop ps fuel st = some st2 →
    ∀ x ∈ st2.waitingTimes, 0 ≤ x := by
  intro fuel
  induction fuel with
  | zero =>
    intro st st2 h hrun
    unfold srtfLoop at hrun
    split at hrun
    · exact absurd hrun (by simp)
    · obtain rfl : st = st2 := by injection hrun
      exact h
  | succ f ih =>
    intro st st2 h hrun
    unfold srtfLoop at hrun
    split at hrun
    · exact ih (srtfStep ps st) st2 (srtfStep_waiting_nonneg ps st h) hrun
    · obtain rfl : st = st2 := by injection hrun
      exact h

theorem getD_nonneg_of_forall {l : List Int} (h : ∀ x ∈ l, 0 ≤ x) (i : Nat) :
    0 ≤ l.getD i 0 := by
  rw [List.getD_eq_getElem?_getD]
  cases hv : l[i]? with
  | none => simp
  | some v =>
    have : v ∈ l := List.getElem?_mem hv
    simpa [hv] using h v this

/-- On any successful SRTF run, every reported waiting time is
non-negative (the completion-time clamp at lines 294-297). -/
theorem SJFSchedule_waiting_nonneg (fuel : Nat) (ps : List Process) (r : SRTFResult)
    (h : SJFSchedule fuel ps = some r) :
    ∀ i : Nat, 0 ≤ r.waitingTimes.getD i 0 := by
  unfold SJFSchedule at h
  cases hrun : srtfLoop ps fuel (srtfInit ps) with
  | none => rw [hrun] at h; exact absurd h (by simp)
  | some st =>
    rw [hrun] at h
    have hr : r = srtfExtract ps st := by
      simp only [Option.map_some'] at h
      injection h with h2
      exact h2.symm
    have hinit : ∀ x ∈ (srtfInit ps).waitingTimes, 0 ≤ x := by
      intro x hx
      simp only [srtfInit] at hx
      rw [List.eq_of_mem_replicate hx]
    have hst := srtfLoop_waiting_nonneg ps fuel (srtfInit ps) st hinit hrun
    intro i
    rw [hr]
    exact getD_nonneg_of_forall hst i

/-! ## Permutation facts about the heap operations -/
theorem cons_set_perm {α : Type} [Inhabited α] :
    ∀ (l : List α) (k : Nat) (a : α), k < l.length →
      (l.getD k default :: l.set k a).Perm (a :: l)
  | [], k, a, hk => absurd hk (by simp)
  | b :: tl, 0, a, _ => by
    simpa using List.Perm.swap a b tl
  | b :: tl, k + 1, a, hk => by
    have hk2 : k < tl.length := by simpa using hk
    have p1 : (tl.getD k default :: b :: tl.set k a).Perm
        (b :: tl.getD k default :: tl.set k a) := List.Perm.swap b (tl.getD k default) _
    have p2 : (b :: tl.getD k default :: tl.set k a).Perm (b :: a :: tl) :=
      List.Perm.cons b (cons_set_perm tl k a hk2)
    have p3 : (b :: a :: tl).Perm (a :: b :: tl) := List.Perm.swap a b tl
    exact (p1.trans p2).trans p3

theorem hswap_length (h : List Process) (i j : Nat) :
    (hswap h i j).length = h.length := by
  simp [hswap, List.length_set]

theorem hswap_perm :
    ∀ (h : List Process) (i j : Nat), i < h.length → j < h.length →
      (hswap h i j).Perm h
  | [], i, j, hi, _ => absurd hi (by simp)
  | b :: tl, 0, 0, _, _ => by
    simp [hswap, hget]
  | b :: tl, 0, j + 1, _, hj => by
    have hj2 : j < tl.length := by simpa using hj
    show ((( b :: tl).set 0 (hget (b :: tl) (j + 1))).set (j + 1) (hget (b :: tl) 0)).Perm _
    simp only [hget, List.getD_cons_succ, List.getD_cons_zero, List.set_cons_zero,
      List.set_cons_succ]
    exact cons_set_perm tl j b hj2
  | b :: tl, i + 1, 0, hi, _ => by
    have hi2 : i < tl.length := by simpa using hi
    show ((( b :: tl).set (i + 1) (hget (b :: tl) 0)).set 0 (hget (b :: tl) (i + 1))).Perm _
    simp only [hget, List.getD_cons_succ, List.getD_cons_zero, List.set_cons_zero,
      List.set_cons_succ]
    exact cons_set_perm tl i b hi2
  | b :: tl, i + 1, j + 1, hi, hj => by
    have hi2 : i < tl.length := by simpa using hi
    have hj2 : j < tl.length := by simpa using hj
    show ((( b :: tl).set (i + 1) (hget (b :: tl) (j + 1))).set (j + 1)
        (hget (b :: tl) (i + 1))).Perm _
    simp only [hget, List.getD_cons_succ, List.set_cons_succ]
    exact List.Perm.cons b (hswap_perm tl i j hi2 hj2)

theorem heapUp_perm :
    ∀ (fuel : Nat) (h : List Process) (j : Nat), j < h.length →
      (heapUp h fuel j).Perm h
  | 0, h, _, _ => List.Perm.refl h
  | fuel + 1, h, 0, _ => List.Perm.refl h
  | fuel + 1, h, j + 1, hj => by
    show (if heapLess h (j + 1) ((j + 1 - 1) / 2) then
        heapUp (hswap h ((j + 1 - 1) / 2) (j + 1)) fuel ((j + 1 - 1) / 2) else h).Perm h
    split
    · have hi : (j + 1 - 1) / 2 < h.length :=
        lt_of_le_of_lt (Nat.le_of_lt_succ (Nat.lt_succ_of_le (by omega))) hj
      refine (heapUp_perm fuel (hswap h ((j + 1 - 1) / 2) (j + 1)) ((j + 1 - 1) / 2) ?_).trans
        (hswap_perm h ((j + 1 - 1) / 2) (j + 1) hi hj)
      rw [hswap_length]
      exact hi
    · exact List.Perm.refl h

theorem heapDown_perm :
    ∀ (fuel : Nat) (h : List Process) (i n : Nat), n ≤ h.length →
      (heapDown fuel h i n).Perm h
  | 0, h, _, _, _ => List.Perm.refl h
  | fuel + 1, h, i, n, hn => by
    simp only [heapDown]
    split
    · exact List.Perm.refl h
    · rename_i hj1
      have hj1n : 2 * i + 1 < n := by omega
      split
      · rename_i hcond
        obtain ⟨hc1, _⟩ := hcond
        split
        · refine (heapDown_perm fuel (hswap h i (2 * i + 2)) (2 * i + 2) n ?_).trans
            (hswap_perm h i (2 * i + 2) (by omega) (by omega))
          rw [hswap_length]
          exact hn
        · exact List.Perm.refl h
      · split
        · refine (heapDown_perm fuel (hswap h i (2 * i + 1)) (2 * i + 1) n ?_).trans
            (hswap_perm h i (2 * i + 1) (by omega) (by omega))
          rw [hswap_length]
          exact hn
        · exact List.Perm.refl h

theorem heapPush_perm (h : List Process) (x : Process) :
    (heapPush h x).Perm (x :: h) := by
  refine (heapUp_perm (h.length + 1) (h ++ [x]) h.length ?_).trans
    (List.perm_append_singleton x h)
  simp

theorem heapPop_spec (h : List Process) (p : Process) (h2 : List Process)
    (hpop : heapPop h = some (p, h2)) : h.Perm (p :: h2) := by
  match h with
  | [] => exact absurd hpop (by simp [heapPop])
  | hd :: tl =>
    have hlen : 0 < (hd :: tl).length := by simp
    set hh := hd :: tl with hhdef
    have h1perm : (hswap hh 0 (hh.length - 1)).Perm hh :=
      hswap_perm hh 0 (hh.length - 1) hlen (by omega)
    have hDperm : (heapDown hh.length (hswap hh 0 (hh.length - 1)) 0 (hh.length - 1)).Perm hh := by
      refine (heapDown_perm hh.length (hswap hh 0 (hh.length - 1)) 0 (hh.length - 1) ?_).trans
        h1perm
      rw [hswap_length]
      omega
    set hD := heapDown hh.length (hswap hh 0 (hh.length - 1)) 0 (hh.length - 1) with hDdef
    have hDlen : hD.length = hh.length := hDperm.length_eq
    have hDne : hD ≠ [] := by
      intro hc
      rw [hc] at hDlen
      simp [hhdef] at hDlen
    have hppop : heapPop hh = some (hget hD (hh.length - 1), hD.dropLast) := by
      rw [hhdef]
      rfl
    have hpair : (hget hD (hh.length - 1), hD.dropLast) = (p, h2) :=
      Option.some.inj (hppop.symm.trans hpop)
    have hp : hget hD (hh.length - 1) = p := congrArg Prod.fst hpair
    have hh2 : hD.dropLast = h2 := congrArg Prod.snd hpair
    have hgetlast : hget hD (hh.length - 1) = hD.getLast hDne := by
      rw [List.getLast_eq_getElem]
      rw [hget, List.getD_eq_getElem hD default (by omega)]
      congr 1
      omega
    have hsplit : hD.dropLast ++ [hget hD (hh.length - 1)] = hD := by
      rw [hgetlast]
      exact List.dropLast_append_getLast hDne
    have hfinal : hD.Perm (hget hD (hh.length - 1) :: hD.dropLast) := by
      conv_lhs => rw [← hsplit]
      exact List.perm_append_singleton _ _
    rw [hp, hh2] at hfinal
    exact hDperm.symm.trans hfinal

theorem insertByArrival_perm (p : Process) (l : List Process) :
    (insertByArrival p l).Perm (p :: l) := by
  induction l with
  | nil => exact List.Perm.refl _
  | cons q rest ih =>
    unfold insertByArrival
    split
    · exact List.Perm.refl _
    · exact (List.Perm.cons q ih).trans (List.Perm.swap p q rest)

theorem sortByArrival_perm (l : List Process) : (sortByArrival l).Perm l := by
  induction l with
  | nil => exact List.Perm.refl _
  | cons p rest ih =>
    exact (insertByArrival_perm p (sortByArrival rest)).trans (List.Perm.cons p ih)

theorem insertByArrival_sorted (p : Process) (l : List Process)
    (h : arrivalSorted l) : arrivalSorted (insertByArrival p l) := by
  induction l with
  | nil => simp [insertByArrival, arrivalSorted]
  | cons q rest ih =>
    obtain ⟨hq, hrest⟩ := List.pairwise_cons.mp h
    unfold insertByArrival
    split
    · rename_i hle
      refine List.pairwise_cons.mpr ⟨?_, h⟩
      intro b hb
      rcases List.mem_cons.mp hb with rfl | hb2
      · exact hle
      · exact le_trans hle (hq b hb2)
    · rename_i hgt
      push_neg at hgt
      refine List.pairwise_cons.mpr ⟨?_, ih hrest⟩
      intro b hb
      have hb2 := (insertByArrival_perm p rest).mem_iff.mp hb
      rcases List.mem_cons.mp hb2 with rfl | hb3
      · exact le_of_lt hgt
      · exact hq b hb3

theorem sortByArrival_sorted (l : List Process) : arrivalSorted (sortByArrival l) := by
  induction l with
  | nil => simp [sortByArrival, arrivalSorted]
  | cons p rest ih => exact insertByArrival_sorted p (sortByArrival rest) ih

/-- Stability of the sort: filtering any single arrival time out of the
sorted list gives exactly the same subsequence, in the same order, as
filtering it out of the input. -/
theorem insertByArrival_filter_arrival (p : Process) (l : List Process) (t : Int) :
    (insertByArrival p l).filter (fun q => decide (q.ArrivalTime = t)) =
      (p :: l).filter (fun q => decide (q.ArrivalTime = t)) := by
  induction l with
  | nil => rfl
  | cons q rest ih =>
    unfold insertByArrival
    split
    · rfl
    · rename_i hgt
      push_neg at hgt
      by_cases hqt : q.ArrivalTime = t
      · have hpt : ¬ p.ArrivalTime = t := by omega
        simp only [List.filter_cons]
        simp [hqt, hpt, ih, List.filter_cons]
      · simp only [List.filter_cons]
        simp [hqt, ih, List.filter_cons]

theorem sortByArrival_filter_arrival (l : List Process) (t : Int) :
    (sortByArrival l).filter (fun q => decide (q.ArrivalTime = t)) =
      l.filter (fun q => decide (q.ArrivalTime = t)) := by
  induction l with
  | nil => rfl
  | cons p rest ih =>
    rw [show sortByArrival (p :: rest) = insertByArrival p (sortByArrival rest) from rfl]
    rw [insertByArrival_filter_arrival]
    simp only [List.filter_cons]
    rw [ih]

/-! ## Go's short-range insertion sort computes the stable arrival sort

`pdqsort` hands every range of at most 12 elements to `insertionSort`.
The lemmas here characterise the swap-based `insertionSortGo` as the
left fold of `insertTail` (each new element bubbles left past strictly
greater keys, landing after every equal key), show that fold is sorted
and filter-stable, and conclude — since a sorted list is determined by
its per-key filters — that it equals `sortByArrival`; hence
`sortSliceGo` and `sortByArrival` agree on every slice of at most 12
elements (`sortSliceGo_short`). -/
theorem insertTail_length (l : List Process) (x : Process) :
    (insertTail l x).length = l.length + 1 := by
  induction l with
  | nil => rfl
  | cons y rest ih =>
    unfold insertTail
    split
    · simp
    · simp [ih]

theorem insertTail_perm (l : List Process) (x : Process) :
    (insertTail l x).Perm (x :: l) := by
  induction l with
  | nil => exact List.Perm.refl _
  | cons y rest ih =>
    unfold insertTail
    split
    · exact List.Perm.refl _
    · exact (List.Perm.cons y ih).trans (List.Perm.swap x y rest)

theorem insertTail_sorted (l : List Process) (x : Process) (h : arrivalSorted l) :
    arrivalSorted (insertTail l x) := by
  induction l with
  | nil => simp [insertTail, arrivalSorted]
  | cons y rest ih =>
    obtain ⟨hy, hrest⟩ := List.pairwise_cons.mp h
    unfold insertTail
    split
    · rename_i hlt
      refine List.pairwise_cons.mpr ⟨?_, h⟩
      intro b hb
      rcases List.mem_cons.mp hb with rfl | hb2
      · exact le_of_lt hlt
      · exact le_trans (le_of_lt hlt) (hy b hb2)
    · rename_i hge
      push_neg at hge
      refine List.pairwise_cons.mpr ⟨?_, ih hrest⟩
      intro b hb
      have hb2 := (insertTail_perm rest x).mem_iff.mp hb
      rcases List.mem_cons.mp hb2 with rfl | hb3
      · exact hge
      · exact hy b hb3

theorem hget_append_length (ys : List Process) (x : Process) (rest : List Process) :
    hget (ys ++ x :: rest) ys.length = x := by
  induction ys with
  | nil => rfl
  | cons y ys ih =>
    show hget (y :: (ys ++ x :: rest)) (ys.length + 1) = x
    simpa [hget, List.getD] using ih

theorem set_append_length (ys : List Process) (x w : Process) (rest : List Process) :
    (ys ++ x :: rest).set ys.length w = ys ++ w :: rest := by
  induction ys with
  | nil => rfl
  | cons y ys ih =>
    show y :: (ys ++ x :: rest).set ys.length w = y :: (ys ++ w :: rest)
    rw [ih]

/-- `Swap(j+1, j)` of two adjacent elements, on the list surgery view. -/
theorem hswap_adjacent (ys : List Process) (u v : Process) (rest : List Process) :
    hswap (ys ++ u :: v :: rest) (ys.length + 1) ys.length = ys ++ v :: u :: rest := by
  have h1 : hget (ys ++ u :: v :: rest) ys.length = u := hget_append_length ys u (v :: rest)
  have h2 : hget (ys ++ u :: v :: rest) (ys.length + 1) = v := by
    have h := hget_append_length (ys ++ [u]) v rest
    rw [List.length_append] at h
    simpa using h
  have h3 : (ys ++ u :: v :: rest).set (ys.length + 1) u = ys ++ u :: u :: rest := by
    have h := set_append_length (ys ++ [u]) v u rest
    rw [List.length_append] at h
    simpa using h
  unfold hswap
  rw [h1, h2, h3]
  exact set_append_length ys u v (u :: rest)

theorem insertTail_concat_lt (ys : List Process) (y x : Process)
    (h : x.ArrivalTime < y.ArrivalTime) :
    insertTail (ys ++ [y]) x = insertTail ys x ++ [y] := by
  induction ys with
  | nil => simp [insertTail, h]
  | cons z ys ih =>
    by_cases hz : x.ArrivalTime < z.ArrivalTime
    · simp [insertTail, hz]
    · simp [insertTail, hz, ih]

theorem insertTail_concat_ge (ys : List Process) (y x : Process)
    (hs : arrivalSorted (ys ++ [y])) (h : y.ArrivalTime ≤ x.ArrivalTime) :
    insertTail (ys ++ [y]) x = ys ++ [y, x] := by
  induction ys with
  | nil => simp [insertTail, not_lt.mpr h]
  | cons z ys ih =>
    have hzc := List.pairwise_cons.mp hs
    have hzy : z.ArrivalTime ≤ y.ArrivalTime := hzc.1 y (by simp)
    have hz : ¬ x.ArrivalTime < z.ArrivalTime := not_lt.mpr (le_trans hzy h)
    simp [insertTail, hz, ih hzc.2]

/-- The bubble loop of Go's `insertionSort`, inserting the element at
index `pre.length` into the sorted prefix `pre`. -/
theorem insSortInner_bubble (pre : List Process) :
    ∀ (x : Process) (post : List Process), arrivalSorted pre →
      insSortInner 0 pre.length (pre ++ x :: post) = insertTail pre x ++ post := by
  induction pre using List.reverseRecOn with
  | nil => intro x post _; rfl
  | append_singleton ys y ih =>
    intro x post hs
    have hys : arrivalSorted ys :=
      List.Pairwise.sublist (List.sublist_append_left ys [y]) hs
    have hl : (ys ++ [y]) ++ x :: post = ys ++ y :: x :: post := by simp
    have hlen : (ys ++ [y]).length = ys.length + 1 := by simp
    rw [hl, hlen]
    have hgx : hget (ys ++ y :: x :: post) (ys.length + 1) = x := by
      have h := hget_append_length (ys ++ [y]) x post
      rw [List.length_append] at h
      simpa using h
    have hgy : hget (ys ++ y :: x :: post) ys.length = y :=
      hget_append_length ys y (x :: post)
    have hsl : sliceLess (ys ++ y :: x :: post) (ys.length + 1) ys.length
        = decide (x.ArrivalTime < y.ArrivalTime) := by
      rw [sliceLess, hgx, hgy]
    show insSortInner 0 (ys.length + 1) (ys ++ y :: x :: post) = _
    rw [insSortInner]
    rw [if_pos (Nat.zero_le ys.length), hsl]
    by_cases hxy : x.ArrivalTime < y.ArrivalTime
    · rw [if_pos (decide_eq_true hxy)]
      rw [hswap_adjacent ys y x post]
      rw [ih x (y :: post) hys]
      rw [insertTail_concat_lt ys y x hxy]
      simp
    · rw [if_neg (by simpa using hxy)]
      rw [insertTail_concat_ge ys y x hs (not_lt.mp hxy)]
      simp

/-- The outer loop of Go's `insertionSort`: with the first `i` elements
already sorted and enough fuel, it folds the remaining elements in one
at a time. -/
theorem insSortOuter_char (rest : List Process) :
    ∀ (fuel : Nat) (acc : List Process), arrivalSorted acc → rest.length ≤ fuel →
      insSortOuter 0 (acc.length + rest.length) fuel acc.length (acc ++ rest) =
        List.foldl insertTail acc rest := by
  induction rest with
  | nil =>
    intro fuel acc _ _
    cases fuel with
    | zero => simp [insSortOuter]
    | succ f =>
      rw [insSortOuter]
      rw [if_neg (by simp)]
      simp
  | cons x rest ih =>
    intro fuel acc hs hf
    cases fuel with
    | zero => exact absurd hf (by simp)
    | succ f =>
      rw [insSortOuter]
      rw [if_pos (by simp)]
      rw [insSortInner_bubble acc x rest hs]
      have hlen := insertTail_length acc x
      have h2 := ih f (insertTail acc x) (insertTail_sorted acc x hs)
        (Nat.le_of_succ_le_succ hf)
      rw [hlen] at h2
      have hb : acc.length + (rest.length + 1) = acc.length + 1 + rest.length := by omega
      rw [List.length_cons, hb]
      simpa using h2

theorem insertionSortGo_eq_foldl (l : List Process) :
    insertionSortGo 0 l.length l = List.foldl insertTail [] l := by
  cases l with
  | nil => rfl
  | cons p rest =>
    have h := insSortOuter_char rest ((p :: rest).length) [p]
      (by simp [arrivalSorted]) (by simp)
    simp only [List.length_singleton, List.singleton_append] at h
    show insSortOuter 0 (rest.length + 1) (rest.length + 1) 1 (p :: rest) = _
    rw [show (1 : Nat) + rest.length = rest.length + 1 from by omega] at h
    exact h

theorem foldl_insertTail_sorted (l : List Process) :
    ∀ acc, arrivalSorted acc → arrivalSorted (List.foldl insertTail acc l) := by
  induction l with
  | nil => intro acc h; exact h
  | cons x rest ih => intro acc h; exact ih _ (insertTail_sorted acc x h)

theorem filter_eq_nil_of_lt (l : List Process) (t : Int)
    (h : ∀ q ∈ l, t < q.ArrivalTime) :
    l.filter (fun q => decide (q.ArrivalTime = t)) = [] := by
  rw [List.filter_eq_nil_iff]
  intro q hq
  have := h q hq
  simp only [decide_eq_true_eq]
  omega

theorem insertTail_filter (l : List Process) (x : Process) (t : Int)
    (hs : arrivalSorted l) :
    (insertTail l x).filter (fun q => decide (q.ArrivalTime = t)) =
      l.filter (fun q => decide (q.ArrivalTime = t)) ++
        (if x.ArrivalTime = t then [x] else []) := by
  induction l with
  | nil => by_cases hx : x.ArrivalTime = t <;> simp [insertTail, hx]
  | cons y rest ih =>
    obtain ⟨hy, hrest⟩ := List.pairwise_cons.mp hs
    by_cases hlt : x.ArrivalTime < y.ArrivalTime
    · rw [show insertTail (y :: rest) x = x :: y :: rest from by simp [insertTail, hlt]]
      by_cases hx : x.ArrivalTime = t
      · have hnil : (y :: rest).filter (fun q => decide (q.ArrivalTime = t)) = [] := by
          apply filter_eq_nil_of_lt
          intro q hq
          rcases List.mem_cons.mp hq with rfl | hq2
          · omega
          · have := hy q hq2
            omega
        rw [List.filter_cons_of_pos (by simp [hx])]
        rw [hnil]
        simp [hx]
      · rw [List.filter_cons_of_neg (by simp [hx])]
        simp [hx]
    · rw [show insertTail (y :: rest) x = y :: insertTail rest x from by
        simp [insertTail, hlt]]
      rw [List.filter_cons, List.filter_cons]
      by_cases hyt : y.ArrivalTime = t
      · simp [hyt, ih hrest]
      · simp [hyt, ih hrest]

theorem foldl_insertTail_filter (l : List Process) (t : Int) :
    ∀ acc, arrivalSorted acc →
      (List.foldl insertTail acc l).filter (fun q => decide (q.ArrivalTime = t)) =
        acc.filter (fun q => decide (q.ArrivalTime = t)) ++
          l.filter (fun q => decide (q.ArrivalTime = t)) := by
  induction l with
  | nil => intro acc _; simp
  | cons x rest ih =>
    intro acc hacc
    rw [List.foldl_cons, ih _ (insertTail_sorted acc x hacc),
      insertTail_filter acc x t hacc, List.filter_cons]
    by_cases hx : x.ArrivalTime = t
    · simp [hx]
    · simp [hx]

/-- A list sorted by arrival time is determined by its per-arrival-time
filters: the uniqueness half of "a stable sort is the unique sorted
order-preserving permutation". -/
theorem sorted_filter_ext (l1 : List Process) :
    ∀ (l2 : List Process), arrivalSorted l1 → arrivalSorted l2 →
    (∀ t : Int, l1.filter (fun q => decide (q.ArrivalTime = t)) =
      l2.filter (fun q => decide (q.ArrivalTime = t))) → l1 = l2 := by
  induction l1 with
  | nil =>
    intro l2 _ _ hf
    cases l2 with
    | nil => rfl
    | cons b l2' =>
      have h := hf b.ArrivalTime
      rw [List.filter_nil, List.filter_cons_of_pos (by simp)] at h
      exact absurd h (by simp)
  | cons a l1' ih =>
    intro l2 hs1 hs2 hf
    cases l2 with
    | nil =>
      have h := hf a.ArrivalTime
      rw [List.filter_nil, List.filter_cons_of_pos (by simp)] at h
      exact absurd h (by simp)
    | cons b l2' =>
      obtain ⟨ha1, hs1'⟩ := List.pairwise_cons.mp hs1
      obtain ⟨hb1, hs2'⟩ := List.pairwise_cons.mp hs2
      have hab : a.ArrivalTime = b.ArrivalTime := by
        have hmemL : a ∈ (b :: l2').filter
            (fun q => decide (q.ArrivalTime = a.ArrivalTime)) := by
          rw [← hf a.ArrivalTime]
          exact List.mem_filter.mpr ⟨List.mem_cons_self a _, by simp⟩
        have hba : b.ArrivalTime ≤ a.ArrivalTime := by
          rcases List.mem_cons.mp (List.mem_filter.mp hmemL).1 with h | h
          · rw [h]
          · exact hb1 a h
        have hmemR : b ∈ (a :: l1').filter
            (fun q => decide (q.ArrivalTime = b.ArrivalTime)) := by
          rw [hf b.ArrivalTime]
          exact List.mem_filter.mpr ⟨List.mem_cons_self b _, by simp⟩
        have hab' : a.ArrivalTime ≤ b.ArrivalTime := by
          rcases List.mem_cons.mp (List.mem_filter.mp hmemR).1 with h | h
          · rw [← h]
          · exact ha1 b h
        omega
      have h := hf a.ArrivalTime
      rw [List.filter_cons_of_pos (by simp),
        List.filter_cons_of_pos (by simp [hab])] at h
      have hhead : a = b := (List.cons_eq_cons.mp h).1
      have htail0 : l1'.filter (fun q => decide (q.ArrivalTime = a.ArrivalTime)) =
          l2'.filter (fun q => decide (q.ArrivalTime = a.ArrivalTime)) :=
        (List.cons_eq_cons.mp h).2
      rw [hhead]
      congr 1
      apply ih l2' hs1' hs2'
      intro t
      by_cases ht : t = a.ArrivalTime
      · rw [ht]
        exact htail0
      · have h3 := hf t
        rw [List.filter_cons_of_neg (by simp; omega),
          List.filter_cons_of_neg (by simp; omega)] at h3
        exact h3

/-- Go's `insertionSort` on a whole slice computes exactly the stable
arrival sort: both are arrival-sorted with the same per-key filters. -/
theorem insertionSortGo_eq_sortByArrival (l : List Process) :
    insertionSortGo 0 l.length l = sortByArrival l := by
  apply sorted_filter_ext
  · rw [insertionSortGo_eq_foldl]
    exact foldl_insertTail_sorted l [] List.Pairwise.nil
  · exact sortByArrival_sorted l
  · intro t
    rw [insertionSortGo_eq_foldl, foldl_insertTail_filter l t [] List.Pairwise.nil,
      sortByArrival_filter_arrival]
    simp

/-- On a slice of at most `maxInsertion = 12` elements, `sort.Slice`
(`pdqsort`) runs `insertionSort` on the whole range and therefore
computes exactly the stable arrival sort `sortByArrival`. -/
theorem sortSliceGo_short (ps : List Process) (h : ps.length ≤ 12) :
    sortSliceGo ps = sortByArrival ps := by
  obtain ⟨f, hf⟩ : ∃ f, ps.length + 64 = f + 1 := ⟨ps.length + 63, by omega⟩
  have h1 : sortSliceGo ps = insertionSortGo 0 ps.length ps := by
    show pdqsortGo (ps.length + 64) 0 ps.length (bitsLen ps.length) true true ps = _
    rw [hf, pdqsortGo]
    simp only [Nat.sub_zero]
    rw [if_pos h]
  rw [h1, insertionSortGo_eq_sortByArrival]

/-! ## Lookup lemmas for `processesMapIdx` and `tempBurstDuration` -/
theorem mapIdx_foldl_no_match (pid : Int) :
    ∀ (l : List Process) (k acc : Nat), (∀ q ∈ l, q.ProcessID ≠ pid) →
      (List.enumFrom k l).foldl
        (fun acc x => if x.2.ProcessID = pid then x.1 else acc) acc = acc := by
  intro l
  induction l with
  | nil => intro k acc _; rfl
  | cons p rest ih =>
    intro k acc hno
    have hp : ¬ p.ProcessID = pid := hno p (List.mem_cons_self p rest)
    show (List.enumFrom (k + 1) rest).foldl _ (if p.ProcessID = pid then k else acc) = acc
    rw [if_neg hp]
    exact ih (k + 1) acc (fun q hq => hno q (List.mem_cons_of_mem p hq))

theorem mapIdx_foldl_unique (pid : Int) :
    ∀ (l : List Process) (k acc i : Nat), i < l.length →
      (l.getD i default).ProcessID = pid →
      (∀ j, j < l.length → j ≠ i → (l.getD j default).ProcessID ≠ pid) →
      (List.enumFrom k l).foldl
        (fun acc x => if x.2.ProcessID = pid then x.1 else acc) acc = k + i := by
  intro l
  induction l with
  | nil => intro k acc i hi; exact absurd hi (by simp)
  | cons p rest ih =>
    intro k acc i hi hmatch huniq
    cases i with
    | zero =>
      have hp : p.ProcessID = pid := by simpa using hmatch
      show (List.enumFrom (k + 1) rest).foldl _ (if p.ProcessID = pid then k else acc) = k + 0
      rw [if_pos hp]
      refine (mapIdx_foldl_no_match pid rest (k + 1) k ?_).trans (by omega)
      intro q hq
      obtain ⟨j, hjlen, hjq⟩ := List.getElem_of_mem hq
      have : (rest.getD j default).ProcessID ≠ pid := by
        have := huniq (j + 1) (by simpa using hjlen) (by omega)
        simpa using this
      rw [List.getD_eq_getElem rest default hjlen, hjq] at this
      exact this
    | succ m =>
      have hm : m < rest.length := by simpa using hi
      have hp : ¬ p.ProcessID = pid := by
        have := huniq 0 (by simp) (by omega)
        simpa using this
      show (List.enumFrom (k + 1) rest).foldl _ (if p.ProcessID = pid then k else acc) = k + (m + 1)
      rw [if_neg hp]
      refine (ih (k + 1) acc m hm (by simpa using hmatch) ?_).trans (by omega)
      intro j hj hjm
      have := huniq (j + 1) (by simpa using hj) (by omega)
      simpa using this

/-- With unique process ids, `processesMapIdx` recovers each process's
position in the sorted slice. -/
theorem processesMapIdx_eq (sorted : List Process)
    (hN : (sorted.map Process.ProcessID).Nodup) (i : Nat) (hi : i < sorted.length) :
    processesMapIdx sorted ((sorted.getD i default).ProcessID) = i := by
  unfold processesMapIdx
  rw [show sorted.enum = List.enumFrom 0 sorted from rfl]
  refine (mapIdx_foldl_unique _ sorted 0 0 i hi rfl ?_).trans (by omega)
  intro j hj hji hc
  have hjm : j < (sorted.map Process.ProcessID).length := by simpa using hj
  have him : i < (sorted.map Process.ProcessID).length := by simpa using hi
  have hidj : (sorted.map Process.ProcessID)[j] = (sorted.map Process.ProcessID)[i] := by
    simp only [List.getElem_map]
    rw [← List.getD_eq_getElem sorted default hj, ← List.getD_eq_getElem sorted default hi]
    rw [hc]
  have h2 := List.nodup_iff_injective_get.mp hN
  have h3 : (⟨j, hjm⟩ : Fin (sorted.map Process.ProcessID).length) = ⟨i, him⟩ :=
    h2 (by simpa using hidj)
  exact absurd (congrArg Fin.val h3) hji

/-- Reading `tempBurstDuration` at a valid index. -/
theorem tempBurstDuration_getD (sorted : List Process) (i : Nat) (hi : i < sorted.length) :
    (tempBurstDuration sorted).getD i 0 = (sorted.getD i default).BurstDuration := by
  unfold tempBurstDuration
  rw [List.getD_eq_getElem _ 0 (by simpa using hi), List.getD_eq_getElem _ default hi]
  simp

theorem filter_or_perm {α : Type} (P Q : α → Bool) :
    ∀ (l : List α), (∀ x ∈ l, ¬(P x = true ∧ Q x = true)) →
      (l.filter (fun x => P x || Q x)).Perm (l.filter P ++ l.filter Q)
  | [], _ => by simp
  | x :: rest, hdis => by
    have hrest := fun y hy => hdis y (List.mem_cons_of_mem x hy)
    have hx := hdis x (List.mem_cons_self x rest)
    by_cases hP : P x = true
    · have hQ : ¬ Q x = true := fun hq => hx ⟨hP, hq⟩
      simp only [List.filter_cons, hP, hQ]
      simpa using List.Perm.cons x (filter_or_perm P Q rest hrest)
    · by_cases hQ : Q x = true
      · simp only [List.filter_cons, hP, hQ]
        simp only [Bool.false_or, if_true, if_false]
        refine List.Perm.trans (List.Perm.cons x (filter_or_perm P Q rest hrest)) ?_
        exact (List.perm_middle).symm
      · simp only [List.filter_cons, hP, hQ]
        simpa using filter_or_perm P Q rest hrest

/-- Extending the strict window by one tick adds exactly the processes
arriving at `T`. -/
theorem pushedWindow_succ (sorted : List Process) (T0 T : Int) (hT : T0 ≤ T) :
    (pushedWindow sorted T0 (T + 1)).Perm
      (pushedWindow sorted T0 T ++
        sorted.filter (fun p => decide (p.ArrivalTime = T))) := by
  have hcong : pushedWindow sorted T0 (T + 1) =
      sorted.filter (fun p =>
        (decide (T0 ≤ p.ArrivalTime ∧ p.ArrivalTime < T) ||
          decide (p.ArrivalTime = T))) := by
    unfold pushedWindow
    refine List.filter_congr ?_
    intro p _
    by_cases h1 : T0 ≤ p.ArrivalTime ∧ p.ArrivalTime < T + 1
    · by_cases h2 : p.ArrivalTime = T
      · simp [h1, h2, hT]
      · have : T0 ≤ p.ArrivalTime ∧ p.ArrivalTime < T := by omega
        simp [h1, h2, this]
    · have h2 : ¬ p.ArrivalTime = T := by omega
      have h3 : ¬ (T0 ≤ p.ArrivalTime ∧ p.ArrivalTime < T) := by omega
      simp [h1, h2, h3]
  rw [hcong]
  refine filter_or_perm _ _ sorted ?_
  intro p _
  simp only [decide_eq_true_eq]
  omega

/-- When every process is already pushed, nothing arrives at the current
tick and the closed window is still everything. -/
theorem pushedWindow_full (sorted : List Process) (T0 T : Int)
    (hfull : (pushedWindow sorted T0 T).length = sorted.length) :
    pushedWindow sorted T0 (T + 1) = pushedWindow sorted T0 T := by
  have hall : ∀ p ∈ sorted, (T0 ≤ p.ArrivalTime ∧ p.ArrivalTime < T) := by
    have := List.filter_length_eq_length.mp hfull
    intro p hp
    simpa using this p hp
  unfold pushedWindow
  refine List.filter_congr ?_
  intro p hp
  have := hall p hp
  have h1 : T0 ≤ p.ArrivalTime ∧ p.ArrivalTime < T + 1 := by omega
  simp [h1, this]

theorem setStop_concat (l : List TimeSlice) (a : TimeSlice) (stop : Int) :
    setStop (l ++ [a]) stop = l ++ [{ a with Stop := stop }] := by
  induction l with
  | nil => rfl
  | cons s rest ih =>
    cases rest with
    | nil => simp [setStop]
    | cons s2 rest2 => simpa [setStop] using ih

theorem ganttTotalLen_concat (l : List TimeSlice) (a : TimeSlice) :
    ganttTotalLen (l ++ [a]) = ganttTotalLen l + (a.Stop - a.Start) := by
  unfold ganttTotalLen
  rw [sumInts_eq_sum, sumInts_eq_sum, List.map_append, List.sum_append]
  simp

/-- The per-tick timeline update of the priority loop preserves the
timeline invariant and advances the recorded length by one tick. -/
theorem ganttInv_step (gantt : List TimeSlice) (p : Process) (T0 T : Int)
    (h : ganttInv gantt T0 T) (hT : T0 ≤ T) :
    ganttInv (setStop (appendGantt gantt p T) (T + 1)) T0 (T + 1) := by
  rcases h with ⟨hnil, hTT0⟩ | ⟨hne, hstop, hWF, hlen⟩
  · subst hnil
    have happ : appendGantt [] p T = [{ PID := p.ProcessID, Start := T, Stop := 0 }] := by
      simp [appendGantt]
    rw [happ]
    refine Or.inr ⟨by simp [lastPid, setStop], by simp [setStop], ?_, ?_⟩
    · constructor
      · intro s hs
        simp only [setStop, List.mem_singleton] at hs
        rw [hs]
        simp
      · simp [setStop, ganttChain]
    · simp [setStop, ganttTotalLen, sumInts]
      omega
  · obtain ⟨l, a, rfl⟩ := List.eq_nil_or_concat gantt |>.resolve_left (by
      intro hc
      rw [hc] at hne
      simp [lastPid] at hne)
    simp only [List.concat_eq_append] at hne hstop hWF hlen ⊢
    have hastop : a.Stop = T := by
      rw [List.getLast?_concat] at hstop
      simpa using hstop
    have hlast : lastPid (l ++ [a]) = some a.PID := by
      simp [lastPid, List.getLast?_concat]
    by_cases hpid : a.PID = p.ProcessID
    · have happ : appendGantt (l ++ [a]) p T = l ++ [a] := by
        unfold appendGantt
        rw [if_neg]
        push_neg
        refine ⟨by simp, ?_⟩
        rw [hlast, hpid]
      rw [happ, setStop_concat]
      obtain ⟨hpos, hchain⟩ := hWF
      have hapos : a.Start < a.Stop := hpos a (by simp)
      refine Or.inr ⟨by simp [lastPid, List.getLast?_concat], by simp [List.getLast?_concat], ⟨?_, ?_⟩, ?_⟩
      · intro s hs
        rcases List.mem_append.mp hs with hs1 | hs2
        · exact hpos s (List.mem_append.mpr (Or.inl hs1))
        · simp only [List.mem_singleton] at hs2
          rw [hs2]
          show a.Start < T + 1
          omega
      · unfold ganttChain at hchain ⊢
        rw [List.chain'_append] at hchain ⊢
        obtain ⟨hc1, _, hc3⟩ := hchain
        refine ⟨hc1, by simp, ?_⟩
        intro x hx y hy
        simp only [List.head?_cons, Option.mem_def, Option.some.injEq] at hy
        have := hc3 x hx a (by simp)
        rw [← hy]
        exact ⟨this.1, this.2⟩
      · rw [ganttTotalLen_concat] at hlen
        rw [ganttTotalLen_concat]
        dsimp only
        omega
    · have happ : appendGantt (l ++ [a]) p T =
          (l ++ [a]) ++ [{ PID := p.ProcessID, Start := T, Stop := 0 }] := by
        unfold appendGantt
        rw [if_pos]
        refine Or.inr ?_
        rw [hlast]
        simp only [ne_eq, Option.some.injEq]
        intro hc
        exact hpid hc
      rw [happ, setStop_concat]
      obtain ⟨hpos, hchain⟩ := hWF
      refine Or.inr ⟨by simp [lastPid, List.getLast?_concat], by simp [List.getLast?_concat],
        ⟨?_, ?_⟩, ?_⟩
      · intro s hs
        rcases List.mem_append.mp hs with hs1 | hs2
        · exact hpos s hs1
        · simp only [List.mem_singleton] at hs2
          rw [hs2]
          show T < T + 1
          omega
      · unfold ganttChain at hchain ⊢
        rw [List.chain'_append]
        refine ⟨hchain, by simp, ?_⟩
        intro x hx y hy
        simp only [List.head?_cons, Option.mem_def, Option.some.injEq] at hy
        rw [List.getLast?_concat] at hx
        simp only [Option.mem_def, Option.some.injEq] at hx
        rw [← hy, ← hx]
        constructor
        · show a.Stop ≤ T
          omega
        · show a.PID ≠ p.ProcessID
          exact hpid
      · rw [ganttTotalLen_concat]
        dsimp only
        omega

theorem pushedWindow_succ_eq_le (sorted : List Process) (T0 T : Int) :
    pushedWindow sorted T0 (T + 1) = pushedWindowLe sorted T0 T := by
  unfold pushedWindow pushedWindowLe
  refine List.filter_congr ?_
  intro p _
  by_cases h : T0 ≤ p.ArrivalTime ∧ p.ArrivalTime ≤ T
  · have h2 : T0 ≤ p.ArrivalTime ∧ p.ArrivalTime < T + 1 := by omega
    simp [h, h2]
  · have h2 : ¬ (T0 ≤ p.ArrivalTime ∧ p.ArrivalTime < T + 1) := by omega
    simp [h, h2]

theorem prioCore_perm (sorted : List Process) (T0 : Int) (win win2 : List Process)
    (st : PrioState) (hperm : win.Perm win2)
    (h : prioCore sorted T0 win st) : prioCore sorted T0 win2 st := by
  obtain ⟨h1, h2, h3, fids, h4, h5, h6, h7, h8⟩ := h
  refine ⟨h1, h2, by rw [h3, hperm.length_eq], fids, h4.trans (hperm.map _), h5, h6, ?_, h8⟩
  rw [sumInts_eq_sum, ← (hperm.map Process.BurstDuration).sum_eq, ← sumInts_eq_sum]
  exact h7

theorem getD_set_self (l : List Int) (i : Nat) (v : Int) (hi : i < l.length) :
    (l.set i v).getD i 0 = v := by
  rw [List.getD_eq_getElem?_getD, List.getElem?_set]
  simp [hi]

theorem getD_set_ne (l : List Int) (i j : Nat) (v : Int) (hne : i ≠ j) :
    (l.set i v).getD j 0 = l.getD j 0 := by
  rw [List.getD_eq_getElem?_getD, List.getElem?_set, if_neg hne, ← List.getD_eq_getElem?_getD]

/-- The push phase: effect of the inner `for` loop on the state. -/
theorem pushArrivals_spec : ∀ (l : List Process) (st : PrioState),
    (pushArrivals l st).currentTime = st.currentTime ∧
    (pushArrivals l st).turnAroundTimes = st.turnAroundTimes ∧
    (pushArrivals l st).waitingTimes = st.waitingTimes ∧
    (pushArrivals l st).gantt = st.gantt ∧
    (pushArrivals l st).insertedProcess = st.insertedProcess +
      (l.filter (fun p => decide (p.ArrivalTime = st.currentTime))).length ∧
    (pushArrivals l st).heapList.Perm
      ((l.filter (fun p => decide (p.ArrivalTime = st.currentTime))) ++ st.heapList)
  | [], st => ⟨rfl, rfl, rfl, rfl, by simp [pushArrivals], by simp [pushArrivals]⟩
  | p :: rest, st => by
    by_cases hp : p.ArrivalTime = st.currentTime
    · have hfold : pushArrivals (p :: rest) st = pushArrivals rest
          { st with insertedProcess := st.insertedProcess + 1,
                    heapList := heapPush st.heapList p } := by
        unfold pushArrivals
        rw [List.foldl_cons, if_pos hp]
      obtain ⟨h1, h2, h3, h4, h5, h6⟩ := pushArrivals_spec rest
        { st with insertedProcess := st.insertedProcess + 1,
                  heapList := heapPush st.heapList p }
      rw [hfold]
      have hfil : (p :: rest).filter (fun q => decide (q.ArrivalTime = st.currentTime)) =
          p :: rest.filter (fun q => decide (q.ArrivalTime = st.currentTime)) := by
        simp [List.filter_cons, hp]
      refine ⟨h1, h2, h3, h4, ?_, ?_⟩
      · rw [h5, hfil]
        simp only [List.length_cons]
        omega
      · rw [hfil]
        refine h6.trans ?_
        refine List.Perm.trans (List.Perm.append_left _ (heapPush_perm st.heapList p)) ?_
        exact List.perm_middle.trans (List.Perm.refl _)
    · have hfold : pushArrivals (p :: rest) st = pushArrivals rest st := by
        unfold pushArrivals
        rw [List.foldl_cons, if_neg hp]
      obtain ⟨h1, h2, h3, h4, h5, h6⟩ := pushArrivals_spec rest st
      rw [hfold]
      have hfil : (p :: rest).filter (fun q => decide (q.ArrivalTime = st.currentTime)) =
          rest.filter (fun q => decide (q.ArrivalTime = st.currentTime)) := by
        simp [List.filter_cons, hp]
      rw [hfil]
      exact ⟨h1, h2, h3, h4, h5, h6⟩

/-- After the (guarded) push phase, the invariant holds with the window
closed at the current tick. -/
theorem pushPhase_inv (sorted : List Process) (T0 : Int)
    (hB : ∀ p ∈ sorted, 0 < p.BurstDuration)
    (st : PrioState) (hinv : PrioInv sorted T0 st) :
    (if st.insertedProcess < sorted.length then pushArrivals sorted st else st).currentTime =
        st.currentTime ∧
      prioCore sorted T0 (pushedWindowLe sorted T0 st.currentTime)
        (if st.insertedProcess < sorted.length then pushArrivals sorted st else st) := by
  obtain ⟨hT, hcore⟩ := hinv
  have hperm1 : (pushedWindowLe sorted T0 st.currentTime).Perm
      (pushedWindow sorted T0 st.currentTime ++
        sorted.filter (fun p => decide (p.ArrivalTime = st.currentTime))) := by
    rw [← pushedWindow_succ_eq_le]
    exact pushedWindow_succ sorted T0 st.currentTime hT
  split
  · rename_i hlt
    obtain ⟨e1, e2, e3, e4, e5, e6⟩ := pushArrivals_spec sorted st
    obtain ⟨h1, h2, h3, fids, h4, h5, h6, h7, h8⟩ := hcore
    refine ⟨e1, ?_, ?_, ?_, fids, ?_, ?_, ?_, ?_, ?_⟩
    · rw [e2]; exact h1
    · rw [e3]; exact h2
    · rw [e5, h3, hperm1.length_eq]
      simp
    · refine List.Perm.trans (List.Perm.append_right fids (e6.map Process.ProcessID)) ?_
      rw [List.map_append, List.append_assoc]
      refine List.Perm.trans (List.Perm.append_left _ h4) ?_
      refine List.Perm.trans List.perm_append_comm ?_
      rw [← List.map_append]
      exact ((hperm1.map Process.ProcessID)).symm
    · intro q hq
      rw [e1]
      have hq2 := (e6.mem_iff).mp hq
      rcases List.mem_append.mp hq2 with hq3 | hq4
      · have hqs : q ∈ sorted := List.mem_of_mem_filter hq3
        have hqt : q.ArrivalTime = st.currentTime := by
          have := List.of_mem_filter hq3
          simpa using this
        obtain ⟨i, hilen, hieq⟩ := List.getElem_of_mem hqs
        refine ⟨i, hilen, ?_, ?_, hB q hqs, ?_, ?_⟩
        · rw [List.getD_eq_getElem sorted default hilen, hieq]
        · rw [List.getD_eq_getElem sorted default hilen, hieq]
        · rw [List.getD_eq_getElem sorted default hilen, hieq]
        · rw [List.getD_eq_getElem sorted default hilen, hieq]
          omega
      · exact h5 q hq4
    · intro pid hpid
      rw [e2, e3]
      exact h6 pid hpid
    · rw [e1]
      have hsum2 : sumInts ((pushedWindowLe sorted T0 st.currentTime).map Process.BurstDuration) =
          sumInts ((pushedWindow sorted T0 st.currentTime).map Process.BurstDuration) +
            sumInts ((sorted.filter
              (fun p => decide (p.ArrivalTime = st.currentTime))).map Process.BurstDuration) := by
        rw [sumInts_eq_sum, sumInts_eq_sum, sumInts_eq_sum,
          (hperm1.map Process.BurstDuration).sum_eq, List.map_append, List.sum_append]
      have hsum3 : sumInts ((pushArrivals sorted st).heapList.map Process.BurstDuration) =
          sumInts ((sorted.filter
              (fun p => decide (p.ArrivalTime = st.currentTime))).map Process.BurstDuration) +
            sumInts (st.heapList.map Process.BurstDuration) := by
        rw [sumInts_eq_sum, sumInts_eq_sum, sumInts_eq_sum,
          (e6.map Process.BurstDuration).sum_eq, List.map_append, List.sum_append]
      rw [hsum2, hsum3, h7]
      ring
    · rw [e1, e4]
      exact h8
  · rename_i hge
    obtain ⟨h1, h2, h3, fids, h4, h5, h6, h7, h8⟩ := hcore
    have hlenle : (pushedWindow sorted T0 st.currentTime).length ≤ sorted.length :=
      List.length_filter_le _ _
    have hfull : (pushedWindow sorted T0 st.currentTime).length = sorted.length := by omega
    have hall : ∀ p ∈ sorted, T0 ≤ p.ArrivalTime ∧ p.ArrivalTime < st.currentTime := by
      have := List.filter_length_eq_length.mp hfull
      intro p hp
      simpa using this p hp
    have hwineq : pushedWindow sorted T0 st.currentTime = sorted := by
      unfold pushedWindow
      refine List.filter_eq_self.mpr ?_
      intro p hp
      simpa using hall p hp
    have hwinle : pushedWindowLe sorted T0 st.currentTime = sorted := by
      unfold pushedWindowLe
      refine List.filter_eq_self.mpr ?_
      intro p hp
      have := hall p hp
      simp only [decide_eq_true_eq]
      omega
    rw [hwinle]
    refine ⟨rfl, ?_⟩
    refine prioCore_perm sorted T0 (pushedWindow sorted T0 st.currentTime) sorted st ?_
      ⟨h1, h2, h3, fids, h4, h5, h6, h7, h8⟩
    rw [hwineq]

theorem pushedWindowLe_pid_nodup (sorted : List Process)
    (hN : (sorted.map Process.ProcessID).Nodup) (T0 T : Int) :
    ((pushedWindowLe sorted T0 T).map Process.ProcessID).Nodup :=
  hN.sublist ((List.filter_sublist sorted).map Process.ProcessID)

/-- The execution part of one iteration preserves the invariant,
re-opened for the next tick. -/
theorem prioExec_inv (sorted : List Process) (T0 : Int)
    (hN : (sorted.map Process.ProcessID).Nodup)
    (hB : ∀ p ∈ sorted, 0 < p.BurstDuration)
    (st1 : PrioState) (hT : T0 ≤ st1.currentTime)
    (hcore : prioCore sorted T0 (pushedWindowLe sorted T0 st1.currentTime) st1)
    (pMin : Process) (h1 : List Process)
    (hpop : heapPop st1.heapList = some (pMin, h1)) :
    PrioInv sorted T0 (prioExec sorted (tempBurstDuration sorted) st1 pMin h1) := by
  obtain ⟨hlen1, hlen2, hins, fids, hperm, hheap, hwr, hsum, hgantt⟩ := hcore
  have hpp : st1.heapList.Perm (pMin :: h1) := heapPop_spec st1.heapList pMin h1 hpop
  have hpMin : pMin ∈ st1.heapList := hpp.mem_iff.mpr (List.mem_cons_self _ _)
  obtain ⟨i0, hi0, hid0, harr0, hbpos0, hble0, hbound0⟩ := hheap pMin hpMin
  have hmapperm : (st1.heapList.map Process.ProcessID).Perm
      (pMin.ProcessID :: h1.map Process.ProcessID) := by
    simpa using hpp.map Process.ProcessID
  have hburstperm : (st1.heapList.map Process.BurstDuration).Perm
      (pMin.BurstDuration :: h1.map Process.BurstDuration) := by
    simpa using hpp.map Process.BurstDuration
  have hwineq : pushedWindow sorted T0 (st1.currentTime + 1) =
      pushedWindowLe sorted T0 st1.currentTime :=
    pushedWindow_succ_eq_le sorted T0 st1.currentTime
  have hganttstep := ganttInv_step st1.gantt
    { pMin with BurstDuration := pMin.BurstDuration - 1 } T0 st1.currentTime hgantt hT
  have hsum1 : sumInts (st1.heapList.map Process.BurstDuration) =
      pMin.BurstDuration + sumInts (h1.map Process.BurstDuration) := by
    rw [sumInts_eq_sum, sumInts_eq_sum, hburstperm.sum_eq]
    simp
  unfold prioExec
  dsimp only
  split
  · -- the decremented copy still has work: push it back
    rename_i hbr
    have hbr2 : 0 < pMin.BurstDuration - 1 := hbr
    constructor
    · show T0 ≤ st1.currentTime + 1
      omega
    · show prioCore sorted T0 (pushedWindow sorted T0 (st1.currentTime + 1)) _
      rw [hwineq]
      refine ⟨hlen1, hlen2, hins, fids, ?_, ?_, hwr, ?_, hganttstep⟩
      · have e1 : ((heapPush h1 { pMin with BurstDuration := pMin.BurstDuration - 1 }).map
            Process.ProcessID).Perm (pMin.ProcessID :: h1.map Process.ProcessID) := by
          simpa using (heapPush_perm h1
            { pMin with BurstDuration := pMin.BurstDuration - 1 }).map Process.ProcessID
        refine List.Perm.trans (List.Perm.append_right fids e1) ?_
        refine List.Perm.trans (List.Perm.append_right fids hmapperm.symm) hperm
      · intro q hq
        have hq2 := (heapPush_perm h1 { pMin with BurstDuration := pMin.BurstDuration - 1
            }).mem_iff.mp hq
        rcases List.mem_cons.mp hq2 with rfl | hq3
        · exact ⟨i0, hi0, hid0, harr0, hbr2, by dsimp only; omega, by dsimp only; omega⟩
        · have hq4 : q ∈ st1.heapList := hpp.mem_iff.mpr (List.mem_cons_of_mem pMin hq3)
          obtain ⟨i, hi, e1, e2, e3, e4, e5⟩ := hheap q hq4
          exact ⟨i, hi, e1, e2, e3, e4, by dsimp only; omega⟩
      · dsimp only
        have hs1 : sumInts ((heapPush h1 { pMin with BurstDuration := pMin.BurstDuration - 1
            }).map Process.BurstDuration) =
            (pMin.BurstDuration - 1) + sumInts (h1.map Process.BurstDuration) := by
          rw [sumInts_eq_sum, sumInts_eq_sum,
            ((heapPush_perm h1 { pMin with BurstDuration := pMin.BurstDuration - 1 }).map
              Process.BurstDuration).sum_eq]
          simp
        rw [hs1]
        rw [hsum1] at hsum
        rw [hsum]
        ring
  · -- the copy is exhausted: retire it and record its statistics
    rename_i hbr
    have hbr2 : ¬ 0 < pMin.BurstDuration - 1 := hbr
    have hb1 : pMin.BurstDuration = 1 := by omega
    have hidx : processesMapIdx sorted pMin.ProcessID = i0 := by
      have := processesMapIdx_eq sorted hN i0 hi0
      rw [hid0] at this
      exact this
    have htb : (tempBurstDuration sorted).getD (processesMapIdx sorted pMin.ProcessID) 0 =
        (sorted.getD i0 default).BurstDuration := by
      rw [hidx]
      exact tempBurstDuration_getD sorted i0 hi0
    have hwinnodup : ((pushedWindowLe sorted T0 st1.currentTime).map Process.ProcessID).Nodup :=
      pushedWindowLe_pid_nodup sorted hN T0 st1.currentTime
    have hlnodup : ((st1.heapList.map Process.ProcessID) ++ fids).Nodup :=
      hperm.nodup_iff.mpr hwinnodup
    have hdisj := List.disjoint_of_nodup_append hlnodup
    have hpMinfids : pMin.ProcessID ∉ fids :=
      fun hc => hdisj (List.mem_map_of_mem Process.ProcessID hpMin) hc
    constructor
    · show T0 ≤ st1.currentTime + 1
      omega
    · show prioCore sorted T0 (pushedWindow sorted T0 (st1.currentTime + 1)) _
      rw [hwineq]
      refine ⟨by simpa using hlen1, by simpa using hlen2, hins,
        pMin.ProcessID :: fids, ?_, ?_, ?_, ?_, hganttstep⟩
      · dsimp only
        refine List.Perm.trans List.perm_middle ?_
        rw [← List.cons_append]
        exact List.Perm.trans (List.Perm.append_right fids hmapperm.symm) hperm
      · intro q hq
        dsimp only at hq
        have hq4 : q ∈ st1.heapList := hpp.mem_iff.mpr (List.mem_cons_of_mem pMin hq)
        obtain ⟨i, hi, e1, e2, e3, e4, e5⟩ := hheap q hq4
        exact ⟨i, hi, e1, e2, e3, e4, by dsimp only; omega⟩
      · intro pid2 hpid2
        dsimp only
        rcases List.mem_cons.mp hpid2 with rfl | hpid3
        · refine ⟨by rw [hidx]; exact hi0, by rw [hidx]; exact hid0, ?_, ?_⟩
          · rw [getD_set_self _ _ _ (by rw [hidx, hlen1]; exact hi0),
              getD_set_self _ _ _ (by rw [hidx, hlen2]; exact hi0), htb, hidx]
            ring
          · rw [getD_set_self _ _ _ (by rw [hidx, hlen2]; exact hi0), htb]
            omega
        · obtain ⟨w1, w2, w3, w4⟩ := hwr pid2 hpid3
          have hne : pid2 ≠ pMin.ProcessID := fun hc => hpMinfids (hc ▸ hpid3)
          have hidxne : processesMapIdx sorted pMin.ProcessID ≠ processesMapIdx sorted pid2 := by
            intro hc
            apply hne
            rw [← w2, ← hc, hidx, hid0]
          refine ⟨w1, w2, ?_, ?_⟩
          · rw [getD_set_ne _ _ _ _ hidxne, getD_set_ne _ _ _ _ hidxne]
            exact w3
          · rw [getD_set_ne _ _ _ _ hidxne]
            exact w4
      · dsimp only
        have hs1 : sumInts (h1.map Process.BurstDuration) =
            sumInts (st1.heapList.map Process.BurstDuration) - pMin.BurstDuration := by
          rw [hsum1]
          ring
        rw [hs1, hsum, hb1]
        ring

theorem prioStep_inv (sorted : List Process) (T0 : Int)
    (hN : (sorted.map Process.ProcessID).Nodup)
    (hB : ∀ p ∈ sorted, 0 < p.BurstDuration)
    (st : PrioState) (hinv : PrioInv sorted T0 st) :
    (∀ st2, prioStep sorted.length sorted (tempBurstDuration sorted) st = .more st2 →
      PrioInv sorted T0 st2) ∧
    (∀ st2, prioStep sorted.length sorted (tempBurstDuration sorted) st = .done st2 →
      PrioInv sorted T0 st2 ∧ st2.heapList = [] ∧
        st2.insertedProcess = sorted.length) := by
  have hT := hinv.1
  obtain ⟨hTeq, hcore1⟩ := pushPhase_inv sorted T0 hB st hinv
  set st1 := if st.insertedProcess < sorted.length then pushArrivals sorted st else st
    with hst1def
  have hT1 : T0 ≤ st1.currentTime := by rw [hTeq]; exact hT
  rw [← hTeq] at hcore1
  cases hpop : heapPop st1.heapList with
  | none =>
    constructor <;> intro st2 hstep <;>
      · unfold prioStep at hstep
        rw [← hst1def] at hstep
        dsimp only at hstep
        rw [hpop] at hstep
        simp at hstep
  | some pr =>
    obtain ⟨pMin, h1⟩ := pr
    have hexec := prioExec_inv sorted T0 hN hB st1 hT1 hcore1 pMin h1 hpop
    constructor
    · intro st2 hstep
      unfold prioStep at hstep
      rw [← hst1def] at hstep
      dsimp only at hstep
      rw [hpop] at hstep
      dsimp only at hstep
      split at hstep
      · exact absurd hstep (by simp)
      · obtain rfl : prioExec sorted (tempBurstDuration sorted) st1 pMin h1 = st2 := by
          injection hstep
        exact hexec
    · intro st2 hstep
      unfold prioStep at hstep
      rw [← hst1def] at hstep
      dsimp only at hstep
      rw [hpop] at hstep
      dsimp only at hstep
      split at hstep
      · rename_i hcond
        obtain rfl : prioExec sorted (tempBurstDuration sorted) st1 pMin h1 = st2 := by
          injection hstep
        exact ⟨hexec, List.length_eq_zero.mp hcond.1, hcond.2⟩
      · exact absurd hstep (by simp)

theorem prioLoop_inv (sorted : List Process) (T0 : Int)
    (hN : (sorted.map Process.ProcessID).Nodup)
    (hB : ∀ p ∈ sorted, 0 < p.BurstDuration) :
    ∀ (fuel : Nat) (st : PrioState), PrioInv sorted T0 st →
      ∀ st2, prioLoop sorted.length sorted (tempBurstDuration sorted) fuel st =
          .finished st2 →
        PrioInv sorted T0 st2 ∧ st2.heapList = [] ∧
          st2.insertedProcess = sorted.length := by
  intro fuel
  induction fuel with
  | zero =>
    intro st _ st2 h
    exact absurd h (by simp [prioLoop])
  | succ f ih =>
    intro st hinv st2 h
    unfold prioLoop at h
    obtain ⟨hmore, hdone⟩ := prioStep_inv sorted T0 hN hB st hinv
    cases hstep : prioStep sorted.length sorted (tempBurstDuration sorted) st with
    | popEmptyPanic => rw [hstep] at h; exact absurd h (by simp)
    | done st3 =>
      rw [hstep] at h
      obtain rfl : st3 = st2 := by injection h
      exact hdone st3 hstep
    | more st3 =>
      rw [hstep] at h
      exact ih st3 (hmore st3 hstep) st2 h

theorem zipWith_getD (f : Process → Int → Int) (l : List Process) (w : List Int) (i : Nat)
    (hi : i < l.length) (hw : w.length = l.length) :
    (List.zipWith f l w).getD i 0 = f (l.getD i default) (w.getD i 0) := by
  rw [List.getD_eq_getElem _ 0 (by rw [List.length_zipWith]; omega),
    List.getElem_zipWith, List.getD_eq_getElem l default hi,
    List.getD_eq_getElem w 0 (by omega)]

/-- Everything the claims need about a completed `SJFPrioritySchedule`
run: the reported table is the arrival-sorted slice; for every row the
turnaround is burst + waiting, the waiting time is non-negative, and the
completion is burst + arrival + waiting; and the timeline is
well-formed with total length equal to the total burst. -/
theorem SJFPrioritySchedule_spec (fuel : Nat) (ps : List Process) (r : PrioResult)
    (hN : (ps.map Process.ProcessID).Nodup)
    (hB : ∀ p ∈ ps, 0 < p.BurstDuration)
    (hok : SJFPrioritySchedule fuel ps = .ok r) :
    r.sorted = sortByArrival ps ∧
    (∀ i, i < ps.length →
      r.turnAroundTimes.getD i 0 =
        (r.sorted.getD i default).BurstDuration + r.waitingTimes.getD i 0 ∧
      0 ≤ r.waitingTimes.getD i 0 ∧
      r.completionTimes.getD i 0 =
        (r.sorted.getD i default).BurstDuration + (r.sorted.getD i default).ArrivalTime +
          r.waitingTimes.getD i 0) ∧
    ganttWellFormed r.gantt ∧
    ganttTotalLen r.gantt = totalBurst ps := by
  cases ps with
  | nil => exact absurd hok (by simp [SJFPrioritySchedule])
  | cons p0 rest =>
    have hsperm : (sortByArrival (p0 :: rest)).Perm (p0 :: rest) :=
      sortByArrival_perm (p0 :: rest)
    have hslen : (sortByArrival (p0 :: rest)).length = (p0 :: rest).length :=
      hsperm.length_eq
    have hNs : ((sortByArrival (p0 :: rest)).map Process.ProcessID).Nodup :=
      ((hsperm.map Process.ProcessID).nodup_iff).mpr hN
    have hBs : ∀ p ∈ sortByArrival (p0 :: rest), 0 < p.BurstDuration :=
      fun p hp => hB p (hsperm.mem_iff.mp hp)
    have hburstsum : totalBurst (p0 :: rest) =
        sumInts ((sortByArrival (p0 :: rest)).map Process.BurstDuration) := by
      unfold totalBurst
      rw [sumInts_eq_sum, sumInts_eq_sum, (hsperm.map Process.BurstDuration).sum_eq]
    unfold SJFPrioritySchedule at hok
    dsimp only at hok
    split at hok
    · exact absurd hok (by simp)
    · exact absurd hok (by simp)
    · rename_i st hloop
      injection hok with h2
      subst h2
      rw [← hslen] at hloop
      have hwin0 : pushedWindow (sortByArrival (p0 :: rest)) p0.ArrivalTime p0.ArrivalTime
          = [] := by
        unfold pushedWindow
        refine List.filter_eq_nil_iff.mpr ?_
        intro p _
        simp only [decide_eq_true_eq]
        omega
      have hinv0 : PrioInv (sortByArrival (p0 :: rest)) p0.ArrivalTime
          { heapList := heapInit [], insertedProcess := 0,
            currentTime := p0.ArrivalTime,
            turnAroundTimes := List.replicate (sortByArrival (p0 :: rest)).length 0,
            waitingTimes := List.replicate (sortByArrival (p0 :: rest)).length 0,
            gantt := [] } := by
        refine ⟨le_refl _, ?_, ?_, ?_, [], ?_, ?_, ?_, ?_, ?_⟩
        · simp
        · simp
        · rw [hwin0]
          rfl
        · rw [hwin0]
          simp [heapInit, heapInitGo]
        · intro q hq
          simp [heapInit, heapInitGo] at hq
        · intro pid hpid
          simp at hpid
        · rw [hwin0]
          simp [heapInit, heapInitGo, sumInts]
        · exact Or.inl ⟨rfl, rfl⟩
      obtain ⟨hinvf, hheapnil, hinsn⟩ :=
        prioLoop_inv (sortByArrival (p0 :: rest)) p0.ArrivalTime hNs hBs fuel _ hinv0 st hloop
      obtain ⟨hTf, hlen1, hlen2, hins, fids, hperm, _, hwr, hsum, hgantt⟩ := hinvf
      have hwinfull : pushedWindow (sortByArrival (p0 :: rest)) p0.ArrivalTime st.currentTime
          = sortByArrival (p0 :: rest) := by
        have hlenw : (pushedWindow (sortByArrival (p0 :: rest)) p0.ArrivalTime
            st.currentTime).length = (sortByArrival (p0 :: rest)).length := by
          omega
        have hall := List.filter_length_eq_length.mp hlenw
        exact List.filter_eq_self.mpr hall
      rw [hwinfull] at hperm hsum
      rw [hheapnil] at hperm hsum
      simp only [List.map_nil, List.nil_append] at hperm
      have hsum2 : sumInts ((sortByArrival (p0 :: rest)).map Process.BurstDuration) =
          st.currentTime - p0.ArrivalTime := by
        rw [hsum]
        simp [sumInts]
      refine ⟨rfl, ?_, ?_, ?_⟩
      · intro i hi
        have hi2 : i < (sortByArrival (p0 :: rest)).length := by omega
        have hmem : ((sortByArrival (p0 :: rest)).getD i default).ProcessID ∈
            (sortByArrival (p0 :: rest)).map Process.ProcessID := by
          rw [List.getD_eq_getElem _ default hi2]
          exact List.mem_map_of_mem Process.ProcessID (List.getElem_mem hi2)
        have hfid : ((sortByArrival (p0 :: rest)).getD i default).ProcessID ∈ fids :=
          hperm.mem_iff.mpr hmem
        obtain ⟨w1, w2, w3, w4⟩ := hwr _ hfid
        have hmapidx : processesMapIdx (sortByArrival (p0 :: rest))
            ((sortByArrival (p0 :: rest)).getD i default).ProcessID = i :=
          processesMapIdx_eq (sortByArrival (p0 :: rest)) hNs i hi2
        rw [hmapidx] at w3 w4
        dsimp only
        refine ⟨w3, w4, ?_⟩
        rw [zipWith_getD _ _ _ i hi2 (by omega)]
      · dsimp only
        rcases hgantt with ⟨hgnil, _⟩ | ⟨_, _, hWF, _⟩
        · rw [hgnil]
          exact ⟨by intro s hs; simp at hs, by simp [ganttChain]⟩
        · exact hWF
      · dsimp only
        rcases hgantt with ⟨hgnil, hTT0⟩ | ⟨_, _, _, hlen⟩
        · rw [hgnil, hburstsum, hsum2, hTT0]
          simp [ganttTotalLen, sumInts]
        · rw [hlen, hburstsum, hsum2]

/-! ## Packaging lemmas for the per-policy statistics -/
theorem FCFSSchedule_stats (ps : List Process) (i : Nat) (hi : i < ps.length) :
    (FCFSSchedule ps).turnaroundTimes.getD i 0 =
        (ps.getD i default).BurstDuration + (FCFSSchedule ps).waitingTimes.getD i 0 ∧
      (FCFSSchedule ps).completionTimes.getD i 0 =
        (ps.getD i default).BurstDuration + (ps.getD i default).ArrivalTime +
          (FCFSSchedule ps).waitingTimes.getD i 0 := by
  have h := fcfsRun_stats 0 0 ps i hi
  refine ⟨h.1, ?_⟩
  show (fcfsRun 0 0 ps).2.2.1.getD i 0 = _
  rw [h.2]
  rfl

theorem srtfStep_waiting_length (ps : List Process) (st : SRTFState) :
    (srtfStep ps st).waitingTimes.length = st.waitingTimes.length := by
  unfold srtfStep
  dsimp only
  split
  · rfl
  · split
    · simp [List.length_set]
    · rfl

theorem srtfLoop_waiting_length (ps : List Process) :
    ∀ (fuel : Nat) (st st2 : SRTFState), srtfLoop ps fuel st = some st2 →
      st2.waitingTimes.length = st.waitingTimes.length := by
  intro fuel
  induction fuel with
  | zero =>
    intro st st2 hrun
    unfold srtfLoop at hrun
    split at hrun
    · exact absurd hrun (by simp)
    · obtain rfl : st = st2 := by injection hrun
      rfl
  | succ f ih =>
    intro st st2 hrun
    unfold srtfLoop at hrun
    split at hrun
    · rw [ih (srtfStep ps st) st2 hrun, srtfStep_waiting_length]
    · obtain rfl : st = st2 := by injection hrun
      rfl

/-- On any successful SRTF run, the reported turnaround and completion
columns are the sums the code computes from the waiting times
(lines 303-318 and `findTurnAroundTimes`). -/
theorem SJFSchedule_stats (fuel : Nat) (ps : List Process) (r : SRTFResult)
    (h : SJFSchedule fuel ps = some r) (i : Nat) (hi : i < ps.length) :
    r.turnaroundTimes.getD i 0 =
        (ps.getD i default).BurstDuration + r.waitingTimes.getD i 0 ∧
      r.completionTimes.getD i 0 =
        (ps.getD i default).BurstDuration + (ps.getD i default).ArrivalTime +
          r.waitingTimes.getD i 0 := by
  unfold SJFSchedule at h
  cases hrun : srtfLoop ps fuel (srtfInit ps) with
  | none => rw [hrun] at h; exact absurd h (by simp)
  | some st =>
    rw [hrun] at h
    simp only [Option.map_some'] at h
    injection h with h2
    subst h2
    have hwl : st.waitingTimes.length = ps.length := by
      rw [srtfLoop_waiting_length ps fuel (srtfInit ps) st hrun]
      simp [srtfInit]
    constructor
    · show (findTurnAroundTimes ps st.waitingTimes).getD i 0 = _
      unfold findTurnAroundTimes
      rw [zipWith_getD _ _ _ i hi hwl]
      rfl
    · show (List.zipWith (fun p w => p.BurstDuration + p.ArrivalTime + w)
          ps st.waitingTimes).getD i 0 = _
      rw [zipWith_getD _ _ _ i hi hwl]
      rfl

/-- In a well-formed timeline the interval starts are non-decreasing
(in fact strictly increasing). -/
theorem ganttWellFormed_start_mono :
    ∀ (gantt : List TimeSlice), ganttWellFormed gantt →
      List.Chain' (fun a b => a.Start ≤ b.Start) gantt
  | [], _ => List.chain'_nil
  | [_], _ => List.chain'_singleton _
  | a :: b :: rest, ⟨hpos, hchain⟩ => by
    unfold ganttChain at hchain
    rw [List.chain'_cons] at hchain
    refine List.chain'_cons.mpr ⟨?_, ?_⟩
    · have h1 : a.Start < a.Stop := hpos a (by simp)
      have h2 : a.Stop ≤ b.Start := hchain.1.1
      omega
    · exact ganttWellFormed_start_mono (b :: rest)
        ⟨fun s hs => hpos s (List.mem_cons_of_mem a hs), hchain.2⟩

/-! ## The claims -/
/-- C1: for every policy and every reported row i, the statistics
satisfy `turnaroundTime[i] = burstDuration[i] + waitingTime[i]` and
`completionTime[i] = arrivalTime[i] + waitingTime[i] + burstDuration[i]`.
For the two preemptive policies this is stated for every run that
completes; the priority policy reports its rows in sorted order and,
as the spec assumes, needs unique process ids and positive bursts. -/
theorem claim_C1 :
    (∀ (ps : List Process) (i : Nat), i < ps.length →
      (FCFSSchedule ps).turnaroundTimes.getD i 0 =
          (ps.getD i default).BurstDuration + (FCFSSchedule ps).waitingTimes.getD i 0 ∧
        (FCFSSchedule ps).completionTimes.getD i 0 =
          (ps.getD i default).ArrivalTime + (FCFSSchedule ps).waitingTimes.getD i 0 +
            (ps.getD i default).BurstDuration) ∧
    (∀ (fuel : Nat) (ps : List Process) (r : SRTFResult),
      SJFSchedule fuel ps = some r → ∀ i : Nat, i < ps.length →
      r.turnaroundTimes.getD i 0 =
          (ps.getD i default).BurstDuration + r.waitingTimes.getD i 0 ∧
        r.completionTimes.getD i 0 =
          (ps.getD i default).ArrivalTime + r.waitingTimes.getD i 0 +
            (ps.getD i default).BurstDuration) ∧
    (∀ (fuel : Nat) (ps : List Process) (r : PrioResult),
      (ps.map Process.ProcessID).Nodup → (∀ p ∈ ps, 0 < p.BurstDuration) →
      SJFPrioritySchedule fuel ps = .ok r → ∀ i : Nat, i < ps.length →
      r.turnAroundTimes.getD i 0 =
          (r.sorted.getD i default).BurstDuration + r.waitingTimes.getD i 0 ∧
        r.completionTimes.getD i 0 =
          (r.sorted.getD i default).ArrivalTime + r.waitingTimes.getD i 0 +
            (r.sorted.getD i default).BurstDuration) := by
  refine ⟨?_, ?_, ?_⟩
  · intro ps i hi
    obtain ⟨h1, h2⟩ := FCFSSchedule_stats ps i hi
    exact ⟨h1, by omega⟩
  · intro fuel ps r hr i hi
    obtain ⟨h1, h2⟩ := SJFSchedule_stats fuel ps r hr i hi
    exact ⟨h1, by omega⟩
  · intro fuel ps r hN hB hok i hi
    obtain ⟨-, hstats, -, -⟩ := SJFPrioritySchedule_spec fuel ps r hN hB hok
    obtain ⟨h1, -, h3⟩ := hstats i hi
    exact ⟨h1, by omega⟩

/-- Witness for C1 at concrete runs of all three policies. -/
theorem claim_C1_witness :
    ((FCFSSchedule exFCFS3).turnaroundTimes.getD 1 0 =
        (exFCFS3.getD 1 default).BurstDuration + (FCFSSchedule exFCFS3).waitingTimes.getD 1 0 ∧
      (FCFSSchedule exFCFS3).completionTimes.getD 1 0 =
        (exFCFS3.getD 1 default).ArrivalTime + (FCFSSchedule exFCFS3).waitingTimes.getD 1 0 +
          (exFCFS3.getD 1 default).BurstDuration) ∧
    ((srtfC5Result).turnaroundTimes.getD 0 0 =
        (exSRTF2.getD 0 default).BurstDuration + (srtfC5Result).waitingTimes.getD 0 0 ∧
      (srtfC5Result).completionTimes.getD 0 0 =
        (exSRTF2.getD 0 default).ArrivalTime + (srtfC5Result).waitingTimes.getD 0 0 +
          (exSRTF2.getD 0 default).BurstDuration) ∧
    ((prioExResult).turnAroundTimes.getD 0 0 =
        ((prioExResult).sorted.getD 0 default).BurstDuration +
          (prioExResult).waitingTimes.getD 0 0 ∧
      (prioExResult).completionTimes.getD 0 0 =
        ((prioExResult).sorted.getD 0 default).ArrivalTime +
          (prioExResult).waitingTimes.getD 0 0 +
          ((prioExResult).sorted.getD 0 default).BurstDuration) := by
  refine ⟨claim_C1.1 exFCFS3 1 (by decide),
    claim_C1.2.1 20 exSRTF2 srtfC5Result (by decide) 0 (by decide),
    claim_C1.2.2 10 exPrio prioExResult (by decide) (by decide) (by decide) 0 (by decide)⟩

/-- C2 counterexample: the claimed timeline invariant fails for FCFS and
SRTF.  With two arrival-0 processes FCFS reuses the stale carried
waiting time as the second interval's start, producing the overlapping
timeline `[P1: 0-4, P2: 0-7]` whose covered length 11 exceeds the total
burst 7; and on the SRTF scenario input the preempted slice keeps
`Stop = 0`, so the covered length is 6, one short of the total burst 7. -/
theorem claim_C2_counterexample :
    (FCFSSchedule exZeroArrivals).gantt = [⟨1, 0, 4⟩, ⟨2, 0, 7⟩] ∧
    ¬ ganttWellFormed (FCFSSchedule exZeroArrivals).gantt ∧
    ganttTotalLen (FCFSSchedule exZeroArrivals).gantt = 11 ∧
    totalBurst exZeroArrivals = 7 ∧
    (SJFSchedule 20 exSRTF2).map (fun r => ganttTotalLen r.gantt) = some 6 ∧
    totalBurst exSRTF2 = 7 := by
  decide

/-- C2 as amended: the timeline invariant does hold for the preemptive
priority policy, on every run that completes (with unique ids and
positive bursts): intervals are positive, ordered by start, pairwise
non-overlapping, no two adjacent intervals share a process id, and the
total covered length is the sum of all burst durations.  (FCFS and SRTF
violate the invariant; see the counterexample.) -/
theorem claim_C2_amended (fuel : Nat) (ps : List Process) (r : PrioResult)
    (hN : (ps.map Process.ProcessID).Nodup)
    (hB : ∀ p ∈ ps, 0 < p.BurstDuration)
    (hok : SJFPrioritySchedule fuel ps = .ok r) :
    ganttWellFormed r.gantt ∧
    List.Chain' (fun a b => a.Start ≤ b.Start) r.gantt ∧
    ganttTotalLen r.gantt = totalBurst ps := by
  obtain ⟨-, -, hWF, hlen⟩ := SJFPrioritySchedule_spec fuel ps r hN hB hok
  exact ⟨hWF, ganttWellFormed_start_mono r.gantt hWF, hlen⟩

/-- Witness for the amended C2 at a concrete priority run. -/
theorem claim_C2_witness :
    ganttWellFormed prioExResult.gantt ∧
    List.Chain' (fun a b => a.Start ≤ b.Start) prioExResult.gantt ∧
    ganttTotalLen prioExResult.gantt = totalBurst exPrio :=
  claim_C2_amended 10 exPrio prioExResult (by decide) (by decide) (by decide)

/-- C3: in FCFS the waiting time is recomputed as
`serviceTime - arrivalTime` only when the process's arrival time is
positive; otherwise the previous process's waiting time is reused
unchanged (initially 0); and `serviceTime` then grows by the burst, as
witnessed by the gantt slice's stop being the prefix sum of bursts. -/
theorem claim_C3 (ps : List Process) (i : Nat) (hi : i < ps.length) :
    ((FCFSSchedule ps).waitingTimes.getD i 0 =
        if (ps.getD i default).ArrivalTime > 0 then
          burstPrefix ps i - (ps.getD i default).ArrivalTime
        else if i = 0 then 0
        else (FCFSSchedule ps).waitingTimes.getD (i - 1) 0) ∧
      ((FCFSSchedule ps).gantt.getD i default).Stop = burstPrefix ps (i + 1) := by
  have h := fcfsRun_waiting_rec 0 0 ps i hi
  constructor
  · show (fcfsRun 0 0 ps).1.getD i 0 = _
    rw [h.1]
    simp only [zero_add]
    rfl
  · show ((fcfsRun 0 0 ps).2.2.2.getD i default).Stop = _
    rw [h.2]
    simp only [zero_add]

/-- Witness for C3 on the FCFS scenario input at row 1. -/
theorem claim_C3_witness :
    ((FCFSSchedule exFCFS3).waitingTimes.getD 1 0 =
        if (exFCFS3.getD 1 default).ArrivalTime > 0 then
          burstPrefix exFCFS3 1 - (exFCFS3.getD 1 default).ArrivalTime
        else if 1 = 0 then 0
        else (FCFSSchedule exFCFS3).waitingTimes.getD 0 0) ∧
      ((FCFSSchedule exFCFS3).gantt.getD 1 default).Stop = burstPrefix exFCFS3 2 :=
  claim_C3 exFCFS3 1 (by decide)

/-- C4 counterexample: at tick 1 on `exTie` both processes are eligible
with equal remaining burst 3, so the claimed rule (globally smallest
remaining burst, ties to lowest input index) would select index 0; the
engine keeps running index 1, because the scan only preempts on a
*strictly* smaller remaining burst than the carried `minRemainTime`. -/
theorem claim_C4_counterexample :
    (srtfStateAt exTie 1).remainTime = [3, 3] ∧
    (srtfStateAt exTie 1).t = 1 ∧
    srtfSelectedAt exTie 1 = some 1 ∧
    srtfClaimSelectedAt exTie 1 = some 0 ∧
    srtfSelectedAt exTie 1 ≠ srtfClaimSelectedAt exTie 1 := by
  decide

/-- C4 as amended: at each tick the scan starts from the carried
threshold `minRemainTime` (the running process's remaining burst, reset
to MaxInt64 only on completion).  If no eligible process
(`arrivalTime ≤ t`, `remainingBurst > 0`) has remaining burst strictly
below the threshold, the scan changes nothing — so the running process
continues, even on a tie with a lower-index process.  Otherwise the
scan selects, among the strict improvers, the one with the smallest
remaining burst, ties broken by lowest input index.  If the scan leaves
`isCheck` false the tick is idle: `t` advances by 1 and nothing else
changes. -/
theorem claim_C4_amended :
    (∀ (ps : List Process) (remain : List Int) (t minR : Int) (cur : Nat) (chk : Bool),
      ((ps.zip remain).enum).filter (srtfImproves t minR) = [] →
        srtfScan ps remain t minR cur chk = (minR, cur, chk)) ∧
    (∀ (ps : List Process) (remain : List Int) (t minR : Int) (cur : Nat) (chk : Bool),
      ((ps.zip remain).enum).filter (srtfImproves t minR) ≠ [] →
        ∃ x ∈ ((ps.zip remain).enum).filter (srtfImproves t minR),
          srtfScan ps remain t minR cur chk = (x.2.2, x.1, true) ∧
          ∀ y ∈ ((ps.zip remain).enum).filter (srtfImproves t minR),
            x.2.2 < y.2.2 ∨ (x.2.2 = y.2.2 ∧ x.1 ≤ y.1)) ∧
    (∀ (ps : List Process) (st : SRTFState),
      (srtfScan ps st.remainTime st.t st.minRemainTime st.curIdx st.isCheck).2.2 = false →
        srtfStep ps st = { st with t := st.t + 1 }) := by
  refine ⟨?_, ?_, srtfStep_idle⟩
  · intro ps remain t minR cur chk h
    exact (srtfScanGo_spec t ((ps.zip remain).enum) (enum_pairwise _) minR cur chk).1 h
  · intro ps remain t minR cur chk h
    exact (srtfScanGo_spec t ((ps.zip remain).enum) (enum_pairwise _) minR cur chk).2 h

/-- Witness for the amended C4: the no-improver case on the tie state,
the fresh-scan case, and a concrete idle tick. -/
theorem claim_C4_witness :
    srtfScan exTie [3, 3] 1 3 1 true = (3, 1, true) ∧
    (∃ x ∈ ((exTie.zip [3, 3]).enum).filter (srtfImproves 1 maxInt64),
      srtfScan exTie [3, 3] 1 maxInt64 0 false = (x.2.2, x.1, true) ∧
      ∀ y ∈ ((exTie.zip [3, 3]).enum).filter (srtfImproves 1 maxInt64),
        x.2.2 < y.2.2 ∨ (x.2.2 = y.2.2 ∧ x.1 ≤ y.1)) ∧
    srtfStep exGap (srtfStateAt exGap 1) =
      { srtfStateAt exGap 1 with t := (srtfStateAt exGap 1).t + 1 } :=
  ⟨claim_C4_amended.1 exTie [3, 3] 1 3 1 true (by decide),
    claim_C4_amended.2.1 exTie [3, 3] 1 maxInt64 0 false (by decide),
    claim_C4_amended.2.2 exGap (srtfStateAt exGap 1) (by decide)⟩

/-- C5 counterexample: on the SRTF scenario input the produced timeline
is not `[P1: 0-1, P2: 1-3, P1: 3-7]`: `SJFSchedule` closes an
interval's `Stop` only when a process *completes* (lines 287-292), so
P1's first, preempted slice keeps the zero value `Stop = 0`. -/
theorem claim_C5_counterexample :
    (SJFSchedule 20 exSRTF2).map SRTFResult.gantt =
      some [⟨1, 0, 0⟩, ⟨2, 1, 3⟩, ⟨1, 3, 7⟩] ∧
    ¬ (SJFSchedule 20 exSRTF2).map SRTFResult.gantt =
      some [⟨1, 0, 1⟩, ⟨2, 1, 3⟩, ⟨1, 3, 7⟩] := by
  decide

/-- C5 as amended: on the SRTF scenario input the waiting times are
`[2, 0]`, the turnarounds `[7, 2]`, the completions `[7, 3]`, and the
timeline has slices starting at 0, 1 and 3 with final stop 7 — but the
first (preempted) slice's stop is the unclosed zero value 0, not 1. -/
theorem claim_C5_amended : SJFSchedule 20 exSRTF2 = some srtfC5Result := by
  decide

/-- C6: the FCFS scenario produces waiting times `[0, 3, 5]`,
turnarounds `[4, 6, 7]`, completions `[4, 7, 9]`, the timeline
`[P1: 0-4, P2: 4-7, P3: 7-9]`, average wait 8/3 (= 2.667 to three
decimals), average turnaround 17/3 (= 5.667) and throughput
1/3 (= 0.333). -/
theorem claim_C6 :
    FCFSSchedule exFCFS3 =
      { waitingTimes := [0, 3, 5], turnaroundTimes := [4, 6, 7],
        completionTimes := [4, 7, 9],
        gantt := [⟨1, 0, 4⟩, ⟨2, 4, 7⟩, ⟨3, 7, 9⟩] } ∧
    fcfsAveWait exFCFS3 = 8 / 3 ∧
    fcfsAveTurnaround exFCFS3 = 17 / 3 ∧
    fcfsAveThroughput exFCFS3 = 1 / 3 ∧
    round (1000 * fcfsAveWait exFCFS3) = 2667 ∧
    round (1000 * fcfsAveTurnaround exFCFS3) = 5667 ∧
    round (1000 * fcfsAveThroughput exFCFS3) = 333 := by
  have h1 : fcfsAveWait exFCFS3 = 8 / 3 := by
    norm_num [fcfsAveWait, fcfsTotalWait, exFCFS3, FCFSSchedule, fcfsRun, sumInts]
  have h2 : fcfsAveTurnaround exFCFS3 = 17 / 3 := by
    norm_num [fcfsAveTurnaround, fcfsTotalTurnaround, exFCFS3, FCFSSchedule, fcfsRun, sumInts]
  have h3 : fcfsAveThroughput exFCFS3 = 1 / 3 := by
    norm_num [fcfsAveThroughput, fcfsLastCompletion, exFCFS3, FCFSSchedule, fcfsRun, sumInts]
  refine ⟨by decide, h1, h2, h3, ?_, ?_, ?_⟩
  · rw [h1, round_eq]
    norm_num
  · rw [h2, round_eq]
    norm_num
  · rw [h3, round_eq]
    norm_num

/-- C7: the claim that every policy terminates without runtime error on
every valid input is contradicted by the code: on `exGap` (positive
bursts, arrivals 0 and 2) the priority scheduler finishes P1 at tick 1,
finds nothing arriving at tick 1, and calls `heap.Pop` on the empty
heap (line 172), an index-out-of-range panic. -/
theorem claim_C7_bug :
    SJFPrioritySchedule 10 exGap = .crashed ∧
    SJFPrioritySchedule 100 exGap = .crashed := by
  decide

/-- C8 counterexample: the sort is *not* stable.  `sort.Slice` is
`pdqsort`, which runs its (stable) insertion sort only on ranges of at
most 12 elements; on the 13-process input `exPdq13` the quicksort
partition's exchanges reorder the three processes with arrival time 2:
ids `[1, 10, 13]` in the input but `[10, 1, 13]` after sorting (the
pivot, id 10, is swapped to the front of the range before
partitioning).  The output is still sorted by arrival time, and it
differs from the stable sort `sortByArrival`. -/
theorem claim_C8_counterexample :
    (sortSliceGo exPdq13).map Process.ArrivalTime
      = [0, 0, 0, 0, 0, 0, 0, 0, 1, 2, 2, 2, 3] ∧
    (sortSliceGo exPdq13).map Process.ProcessID
      = [11, 2, 3, 5, 6, 12, 8, 9, 4, 10, 1, 13, 7] ∧
    ((sortSliceGo exPdq13).filter (fun q => decide (q.ArrivalTime = 2))).map
      Process.ProcessID = [10, 1, 13] ∧
    (exPdq13.filter (fun q => decide (q.ArrivalTime = 2))).map
      Process.ProcessID = [1, 10, 13] ∧
    sortSliceGo exPdq13 ≠ sortByArrival exPdq13 := by
  decide

/-- C8 as amended: the priority policy works on the input sorted by
arrival time ascending, and the simulation clock is initialised from
the arrival time of the process that is first in the *original,
unsorted* input order (line 144 reads `processes[0]` before
`sort.Slice` runs).  The sort is stable only in `sort.Slice`'s
insertion-sort regime: on slices of at most 12 elements it computes
exactly the stable arrival sort (filtering any arrival time yields the
same subsequence as in the input); on longer slices stability fails
(see the counterexample). -/
theorem claim_C8_amended (fuel : Nat) (p0 : Process) (rest : List Process) :
    arrivalSorted (sortByArrival (p0 :: rest)) ∧
    ((p0 :: rest).length ≤ 12 →
      sortSliceGo (p0 :: rest) = sortByArrival (p0 :: rest) ∧
      ∀ t : Int,
        (sortSliceGo (p0 :: rest)).filter (fun q => decide (q.ArrivalTime = t)) =
          (p0 :: rest).filter (fun q => decide (q.ArrivalTime = t))) ∧
    SJFPrioritySchedule fuel (p0 :: rest) =
      priorityRunFrom fuel (p0 :: rest) p0.ArrivalTime := by
  refine ⟨sortByArrival_sorted (p0 :: rest), fun h => ⟨sortSliceGo_short _ h, fun t => ?_⟩,
    rfl⟩
  rw [sortSliceGo_short _ h, sortByArrival_filter_arrival]

/-- Witness for the amended C8 at the concrete two-process input
`exUnsorted` (length 2, within the insertion-sort regime). -/
theorem claim_C8_witness :
    sortSliceGo exUnsorted = sortByArrival exUnsorted ∧
    SJFPrioritySchedule 10 exUnsorted = priorityRunFrom 10 exUnsorted 5 := by
  have h := claim_C8_amended 10 ⟨1, 5, 1, 0⟩ [⟨2, 0, 1, 0⟩]
  exact ⟨(h.2.1 (by decide)).1, h.2.2⟩

/-- C9 counterexample: FCFS reports a negative waiting time.  On a
single process with arrival time 5, `waitingTime = serviceTime -
arrivalTime = 0 - 5 = -5` is reported unclamped (lines 91-95). -/
theorem claim_C9_counterexample :
    (FCFSSchedule exLateSingle).waitingTimes.getD 0 0 = -5 ∧
    ¬ 0 ≤ (FCFSSchedule exLateSingle).waitingTimes.getD 0 0 := by
  decide

/-- C9 as amended: the SRTF and preemptive-priority policies report
only non-negative waiting times (SRTF computes
`waitingTime = completion tick - burstDuration - arrivalTime` and
clamps negative results to 0, lines 294-297); FCFS can report negative
waiting times. -/
theorem claim_C9_amended :
    (∀ (fuel : Nat) (ps : List Process) (r : SRTFResult),
      SJFSchedule fuel ps = some r → ∀ i : Nat, 0 ≤ r.waitingTimes.getD i 0) ∧
    (∀ (fuel : Nat) (ps : List Process) (r : PrioResult),
      (ps.map Process.ProcessID).Nodup → (∀ p ∈ ps, 0 < p.BurstDuration) →
      SJFPrioritySchedule fuel ps = .ok r → ∀ i : Nat, i < ps.length →
        0 ≤ r.waitingTimes.getD i 0) := by
  refine ⟨SJFSchedule_waiting_nonneg, ?_⟩
  intro fuel ps r hN hB hok i hi
  obtain ⟨-, hstats, -, -⟩ := SJFPrioritySchedule_spec fuel ps r hN hB hok
  exact (hstats i hi).2.1

/-- Witness for the amended C9 at concrete SRTF and priority runs. -/
theorem claim_C9_witness :
    0 ≤ srtfC5Result.waitingTimes.getD 0 0 ∧
    0 ≤ prioExResult.waitingTimes.getD 0 0 :=
  ⟨claim_C9_amended.1 20 exSRTF2 srtfC5Result (by decide) 0,
    claim_C9_amended.2 10 exPrio prioExResult (by decide) (by decide) (by decide) 0
      (by decide)⟩

/-- C10 counterexample: running the priority policy reorders the
caller's slice in place (`sort.Slice`, lines 149-151): after a run on
`exUnsorted` the caller's slice is sorted by arrival, not in its
original order. -/
theorem claim_C10_counterexample :
    priorityCallerSliceAfter exUnsorted = [⟨2, 0, 1, 0⟩, ⟨1, 5, 1, 0⟩] ∧
    ¬ priorityCallerSliceAfter exUnsorted = exUnsorted := by
  decide

/-- C10 as amended: `FCFSSchedule` and `SJFSchedule` never modify the
caller's process records or their order; `SJFPrioritySchedule` leaves
the record field values intact (the heap mutates copies) but
permanently reorders the caller's slice, sorting it by arrival time in
place, so a subsequent policy run over the same slice sees the
reordered list. -/
theorem claim_C10_amended (ps : List Process) :
    fcfsCallerSliceAfter ps = ps ∧
    sjfCallerSliceAfter ps = ps ∧
    (priorityCallerSliceAfter ps).Perm ps ∧
    arrivalSorted (priorityCallerSliceAfter ps) :=
  ⟨rfl, rfl, sortByArrival_perm ps, sortByArrival_sorted ps⟩
